import Mathlib

/-!
# Calculator-CPP: controller, button grid and expression evaluation

A shallow embedding of `src/main.cpp`.

* `QString` is a list of characters.
* The state the slots touch is the pair (`display`, `expression`): the text last
  handed to the line edit by `setText` / `clear`, and the expression buffer.
* `QJSEngine::evaluate` is a call into the Qt library.  The slots only observe
  `isError()` and, when that is false, `toString()`; the controller takes that
  observation as a parameter `engine`, and every statement about the controller
  alone holds for all engines.
* What the engine answers is fixed by a reference semantics, `ecmaEvaluate`:
  ECMA-262 evaluation (lexical grammar, expression grammar, IEEE 754 binary64
  arithmetic with round-to-nearest-even, Number::toString) of the programs that
  consist of decimal literals, the globals `Infinity`, `NaN`, `undefined`, regular
  expression literals, comments and the operators `+ - * /`.  It answers `none`
  on every other program.  `Conforms engine` says that an engine agrees with it;
  statements about results of the engine are made for conforming engines.
-/

namespace Calc

/-- A `QString`, as the list of its characters. -/
abbrev QString := List Char

/-- What `Calculator::evaluateExpression` observes of the `QJSValue` returned by
`QJSEngine::evaluate`: either `isError()` holds, or it does not and `toString()`
is the given text. -/
inductive QJSValue where
  | error : QJSValue
  | value (toString : QString) : QJSValue
  deriving DecidableEq, Repr

/-- The members of `Calculator` the slots read and write: `display` is the text
last handed to the read-only line edit (`setText`, or empty after `clear`) and
`expression` is the buffer. -/
structure Calculator where
  display : QString
  expression : QString
  deriving DecidableEq, Repr

/-- State right after the constructor: `expression` is default-constructed and the
line edit holds no text. -/
def startup : Calculator := { display := [], expression := [] }

/-- Body of `Calculator::evaluateExpression` (main.cpp 92-107). -/
def evaluateExpression (engine : QString → QJSValue) (c : Calculator) : Calculator :=
  match engine c.expression with
  | QJSValue.error => { display := "Error".toList, expression := [] }
  | QJSValue.value resultStr => { display := resultStr, expression := resultStr }

/-- Body of `Calculator::handleButton` (main.cpp 68-90).  `sender` is `none` when
`qobject_cast<QPushButton*>(sender())` is null, otherwise the text of the button. -/
def handleButton (engine : QString → QJSValue) (sender : Option QString)
    (c : Calculator) : Calculator :=
  match sender with
  | none => c
  | some btnText =>
    if btnText = "C".toList then
      { display := [], expression := [] }
    else if btnText = "=".toList then
      evaluateExpression engine c
    else
      { display := c.expression ++ btnText, expression := c.expression ++ btnText }

/-- A click on the push button labelled `label`. -/
def press (engine : QString → QJSValue) (label : QString) (c : Calculator) : Calculator :=
  handleButton engine (some label) c

/-- A sequence of clicks, handled one after the other. -/
def pressAll (engine : QString → QJSValue) (labels : List QString) (c : Calculator) :
    Calculator :=
  labels.foldl (fun s l => press engine l s) c

/-- The `QStringList buttons` of the constructor (main.cpp 43-48). -/
def buttons : List QString :=
  [ "7".toList, "8".toList, "9".toList, "/".toList,
    "4".toList, "5".toList, "6".toList, "*".toList,
    "1".toList, "2".toList, "3".toList, "-".toList,
    "0".toList, "C".toList, "=".toList, "+".toList ]

/-- The 14 labels that are neither `C` nor `=`. -/
def literalLabels : List QString :=
  [ "0".toList, "1".toList, "2".toList, "3".toList, "4".toList,
    "5".toList, "6".toList, "7".toList, "8".toList, "9".toList,
    "+".toList, "-".toList, "*".toList, "/".toList ]

/-- One `layout->addWidget(btn, row, col)` call of the constructor. -/
structure Placement where
  text : QString
  row : Nat
  col : Nat
  deriving DecidableEq, Repr

/-- The placement loop of the constructor (main.cpp 50-61), started with the
given `row` and `col`; it returns the `addWidget` calls in order. -/
def placeButtons : List QString → Nat → Nat → List Placement
  | [], _, _ => []
  | text :: rest, row, col =>
    { text := text, row := row, col := col } ::
      (if col + 1 > 3 then placeButtons rest (row + 1) 0
       else placeButtons rest row (col + 1))

/-- The grid built by the constructor: `int row = 1, col = 0;` then the loop. -/
def grid : List Placement := placeButtons buttons 1 0

/-- The label placed in a cell, if any (first placement wins). -/
def cellAt (g : List Placement) (row col : Nat) : Option QString :=
  (g.find? (fun p => p.row == row && p.col == col)).map Placement.text


/-! ## IEEE 754 binary64 -/

/-- Number of binary digits of `n`, by repeated halving (`fuel` bounds the depth). -/
def bitLengthAux : Nat → Nat → Nat
  | 0, _ => 0
  | fuel + 1, n => if n = 0 then 0 else bitLengthAux fuel (n / 2) + 1

/-- Number of binary digits of `n` (0 for 0). -/
def bitLength (n : Nat) : Nat := bitLengthAux n n

/-- An IEEE 754 binary64 datum.  `fin neg m e` is `(-1)^neg * m * 2^e`, kept in
canonical form: `m < 2^53`, `-1074 ≤ e ≤ 971`, and `2^52 ≤ m` unless `e = -1074`
(zero is `m = 0`, `e = -1074`). -/
inductive Double where
  | nan : Double
  | inf (neg : Bool) : Double
  | fin (neg : Bool) (m : Nat) (e : Int) : Double
  deriving DecidableEq, Repr

/-- Quotient `num / den` rounded to the nearest integer, ties to even. -/
def divRoundEven (num den : Nat) : Nat :=
  let q := num / den
  let r := num % den
  if 2 * r < den then q
  else if den < 2 * r then q + 1
  else if q % 2 = 0 then q else q + 1

/-- The integer `floor (log2 (num / den))` for positive `num` and `den`: the
difference of the binary lengths, or one less. -/
def floorLog2 (num den : Nat) : Int :=
  let l : Int := (bitLength num : Int) - (bitLength den : Int)
  if (if 0 ≤ l then den * 2 ^ l.toNat ≤ num else den ≤ num * 2 ^ (-l).toNat) then l
  else l - 1

/-- The rational `num / den / 2^e` rounded to the nearest integer, ties to even. -/
def scaledQuotient (num den : Nat) (e : Int) : Nat :=
  if 0 ≤ e then divRoundEven num (den * 2 ^ e.toNat)
  else divRoundEven (num * 2 ^ (-e).toNat) den

/-- The binary64 nearest to the rational `num / den` (`den > 0`), ties to even,
with the given sign (roundTiesToEven of IEEE 754): the exponent is that of the
binade of the value, at least the subnormal one; a significand rounded up to
`2^53` moves to the next binade; beyond the largest exponent the result is
infinite. -/
def roundToDouble (neg : Bool) (num den : Nat) : Double :=
  if num = 0 then Double.fin neg 0 (-1074)
  else
    let e : Int := max (floorLog2 num den - 52) (-1074)
    let m : Nat := scaledQuotient num den e
    if m = 2 ^ 53 then
      (if 971 < e + 1 then Double.inf neg else Double.fin neg (2 ^ 52) (e + 1))
    else if 971 < e then Double.inf neg
    else Double.fin neg m e

/-- Canonical form of a binary64 datum: a significand below `2^53`, an exponent
from -1074 to 971, and a significand of at least `2^52` unless the exponent is
the subnormal one. -/
def Double.Canonical : Double → Prop
  | Double.fin _ m e => m < 2 ^ 53 ∧ -1074 ≤ e ∧ e ≤ 971 ∧ (2 ^ 52 ≤ m ∨ e = -1074)
  | _ => True

namespace Double

/-- A finite magnitude `m * 2^e` as a multiple of `2^-1074`. -/
def scaled (m : Nat) (e : Int) : Nat := m * 2 ^ (e + 1074).toNat

/-- Unary minus. -/
def neg : Double → Double
  | nan => nan
  | inf s => inf (!s)
  | fin s m e => fin (!s) m e

/-- IEEE 754 addition. -/
def add : Double → Double → Double
  | nan, _ => nan
  | _, nan => nan
  | inf s, inf t => if s = t then inf s else nan
  | inf s, fin _ _ _ => inf s
  | fin _ _ _, inf t => inf t
  | fin s m e, fin t n f =>
    let a := scaled m e
    let b := scaled n f
    if s = t then roundToDouble s (a + b) (2 ^ 1074)
    else if a = b then fin false 0 (-1074)
    else if b < a then roundToDouble s (a - b) (2 ^ 1074)
    else roundToDouble t (b - a) (2 ^ 1074)

/-- IEEE 754 subtraction. -/
def sub (x y : Double) : Double := add x (neg y)

/-- IEEE 754 multiplication. -/
def mul : Double → Double → Double
  | nan, _ => nan
  | _, nan => nan
  | inf s, inf t => inf (xor s t)
  | inf s, fin t n _ => if n = 0 then nan else inf (xor s t)
  | fin s m _, inf t => if m = 0 then nan else inf (xor s t)
  | fin s m e, fin t n f =>
    roundToDouble (xor s t) (scaled m e * scaled n f) (2 ^ 2148)

/-- IEEE 754 division. -/
def div : Double → Double → Double
  | nan, _ => nan
  | _, nan => nan
  | inf _, inf _ => nan
  | inf s, fin t _ _ => inf (xor s t)
  | fin s _ _, inf t => fin (xor s t) 0 (-1074)
  | fin s m e, fin t n f =>
    if n = 0 then (if m = 0 then nan else inf (xor s t))
    else roundToDouble (xor s t) (scaled m e) (scaled n f)

end Double

/-! ## Number::toString -/

/-- Whether `num / den < 10^n`. -/
def ltPow10 (num den : Nat) (n : Int) : Bool :=
  if 0 ≤ n then num < den * 10 ^ n.toNat else num * 10 ^ (-n).toNat < den

/-- Search upwards from `n` for the first exponent with `num / den < 10^n`. -/
def decimalExponentAux : Nat → Int → Nat → Nat → Int
  | 0, n, _, _ => n
  | fuel + 1, n, num, den =>
    if ltPow10 num den n then n else decimalExponentAux fuel (n + 1) num den

/-- The `n` with `10^(n-1) ≤ num / den < 10^n`, for a positive binary64 magnitude. -/
def decimalExponent (num den : Nat) : Int := decimalExponentAux 640 (-323) num den

/-- The rational `c * 10^p` as numerator and denominator. -/
def timesPow10 (c : Nat) (p : Int) : Nat × Nat :=
  if 0 ≤ p then (c * 10 ^ p.toNat, 1) else (c, 10 ^ (-p).toNat)

/-- A candidate digit integer `c` for `k` digits and decimal exponent `n`; the
candidate `10^k` is the one-digit-longer power of ten and is written with `k`
digits as `10^(k-1)` and exponent `n + 1`. -/
def candidate (c k : Nat) (n : Int) : Nat × Int :=
  if c = 10 ^ k then (10 ^ (k - 1), n + 1) else (c, n)

/-- Whether `s * 10^(n-k)` rounds to the binary64 `fin false m e`. -/
def roundsTo (m : Nat) (e : Int) (s k : Nat) (n : Int) : Bool :=
  roundToDouble false (timesPow10 s (n - (k : Int))).1 (timesPow10 s (n - (k : Int))).2
    = Double.fin false m e

/-- Search for the shortest digit string of the positive finite value `m * 2^e`,
whose decimal exponent is `n`: the least `k` (at most `fuel` more tries) such that
some integer `s` of `k` digits has `s * 10^(n-k)` rounding to the value; of the two
candidates around the value the nearer one, the even one on a tie.  Returns
`(s, k, n)`. -/
def shortestAux (m : Nat) (e : Int) (n : Int) : Nat → Nat → Nat × Nat × Int
  | 0, k => (0, k, n)
  | fuel + 1, k =>
    let p : Int := n - (k : Int)
    let num := Double.scaled m e * (if 0 ≤ p then 1 else 10 ^ (-p).toNat)
    let den := 2 ^ 1074 * (if 0 ≤ p then 10 ^ p.toNat else 1)
    let lo := num / den
    let r := num % den
    let hi := candidate (lo + 1) k n
    let okLo : Bool := roundsTo m e lo k n
    let okHi : Bool := roundsTo m e hi.1 k hi.2
    if okLo && okHi then
      (if 2 * r < den then (lo, k, n)
       else if den < 2 * r then (hi.1, k, hi.2)
       else if lo % 2 = 0 then (lo, k, n) else (hi.1, k, hi.2))
    else if okLo then (lo, k, n)
    else if okHi then (hi.1, k, hi.2)
    else shortestAux m e n fuel (k + 1)

/-- The digits `s`, their count `k` and the decimal exponent `n` of ECMA-262
Number::toString step 5 for the positive finite value `m * 2^e`.  The search
runs up to `k = n + 1074`, where the value itself is `k` digits times
`10^-1074`. -/
def shortestDigits (m : Nat) (e : Int) : Nat × Nat × Int :=
  let n := decimalExponent (Double.scaled m e) (2 ^ 1074)
  shortestAux m e n (n + 1074).toNat 1

/-- ECMA-262 Number::toString for a positive finite value, from `s`, `k`, `n`. -/
def formatDigits (s k : Nat) (n : Int) : QString :=
  let ds := Nat.toDigits 10 s
  if (k : Int) ≤ n ∧ n ≤ 21 then ds ++ List.replicate (n.toNat - k) '0'
  else if 0 < n ∧ n ≤ 21 then ds.take n.toNat ++ '.' :: ds.drop n.toNat
  else if -6 < n ∧ n ≤ 0 then '0' :: '.' :: (List.replicate (-n).toNat '0' ++ ds)
  else
    let x := n - 1
    let ex := (if 0 ≤ x then '+' else '-') :: Nat.toDigits 10 x.natAbs
    if k = 1 then ds ++ 'e' :: ex
    else ds.take 1 ++ '.' :: (ds.drop 1 ++ 'e' :: ex)

/-- ECMA-262 Number::toString (radix 10). -/
def Double.toString : Double → QString
  | Double.nan => "NaN".toList
  | Double.inf false => "Infinity".toList
  | Double.inf true => "-Infinity".toList
  | Double.fin neg m e =>
    if m = 0 then "0".toList
    else
      let skn := shortestDigits m e
      let body := formatDigits skn.1 skn.2.1 skn.2.2
      if neg then '-' :: body else body

/-! ## ECMAScript values and tokens -/

/-- Outcome of a step of the reference semantics: a result, a thrown error
(SyntaxError, ReferenceError, ...), or `unknown` when the input leaves the
modelled fragment. -/
inductive Res (α : Type) where
  | ok (a : α) : Res α
  | throw : Res α
  | unknown : Res α
  deriving DecidableEq, Repr

/-- Sequencing of outcomes. -/
def Res.bind {α β : Type} (r : Res α) (f : α → Res β) : Res β :=
  match r with
  | Res.ok a => f a
  | Res.throw => Res.throw
  | Res.unknown => Res.unknown

/-- The ECMAScript values the fragment can produce. -/
inductive JSVal where
  | undefined : JSVal
  | number (d : Double) : JSVal
  | string (s : QString) : JSVal
  | regexp (source : QString) : JSVal
  deriving DecidableEq, Repr

/-- ECMA-262 ToString (for a RegExp object through `RegExp.prototype.toString`,
flags being empty in the fragment). -/
def JSVal.toString : JSVal → QString
  | JSVal.undefined => "undefined".toList
  | JSVal.number d => d.toString
  | JSVal.string s => s
  | JSVal.regexp source => '/' :: (source ++ ['/'])

/-- ECMA-262 ToNumber.  A string holding a `/` is no StringNumericLiteral and
converts to NaN; other strings are outside the fragment. -/
def JSVal.toNumber : JSVal → Res Double
  | JSVal.undefined => Res.ok Double.nan
  | JSVal.number d => Res.ok d
  | JSVal.string s => if '/' ∈ s then Res.ok Double.nan else Res.unknown
  | JSVal.regexp _ => Res.ok Double.nan

/-- Whether ToPrimitive of the value is a string. -/
def JSVal.isStringy : JSVal → Bool
  | JSVal.string _ => true
  | JSVal.regexp _ => true
  | _ => false

/-- The binary operators of the fragment. -/
inductive BinOp where
  | plus | minus | star | slash
  deriving DecidableEq, Repr

/-- ECMA-262 evaluation of `a op b` on values: `+` concatenates when either
primitive is a string, everything else is arithmetic on ToNumber. -/
def applyBinOp (op : BinOp) (a b : JSVal) : Res JSVal :=
  match op with
  | BinOp.plus =>
    if a.isStringy || b.isStringy then Res.ok (JSVal.string (a.toString ++ b.toString))
    else a.toNumber.bind fun x => b.toNumber.bind fun y => Res.ok (JSVal.number (x.add y))
  | BinOp.minus =>
    a.toNumber.bind fun x => b.toNumber.bind fun y => Res.ok (JSVal.number (x.sub y))
  | BinOp.star =>
    a.toNumber.bind fun x => b.toNumber.bind fun y => Res.ok (JSVal.number (x.mul y))
  | BinOp.slash =>
    a.toNumber.bind fun x => b.toNumber.bind fun y => Res.ok (JSVal.number (x.div y))

/-- Tokens: an operand already reduced to its value (numeric literal, one of the
global constants `Infinity`, `NaN`, `undefined`, or a regular expression
literal), or one of the four punctuators. -/
inductive Token where
  | lit (v : JSVal) : Token
  | op (o : BinOp) : Token
  deriving DecidableEq, Repr

/-! ## Lexical grammar -/

/-- The value of a string of decimal digits. -/
def digitsValue (ds : List Char) : Nat :=
  ds.foldl (fun acc c => 10 * acc + (c.toNat - 48)) 0

/-- The Number value of the decimal literal with integer digits `ip`, fraction
digits `fp` and exponent `ex` (ECMA-262 NumericValue, then rounding). -/
def literalValue (ip fp : List Char) (ex : Int) : Double :=
  let p : Int := ex - (fp.length : Int)
  roundToDouble false (timesPow10 (digitsValue (ip ++ fp)) p).1
    (timesPow10 (digitsValue (ip ++ fp)) p).2

/-- Exponent part of a decimal literal: `e` or `E`, an optional sign, digits.
Returns the exponent and the rest; `none` when an `e` is not followed by digits. -/
def lexExponent (cs : List Char) : Option (Int × List Char) :=
  match cs with
  | c :: rest =>
    if c = 'e' ∨ c = 'E' then
      match rest with
      | '+' :: r =>
        if (r.takeWhile Char.isDigit).isEmpty then none
        else some ((digitsValue (r.takeWhile Char.isDigit) : Int), r.dropWhile Char.isDigit)
      | '-' :: r =>
        if (r.takeWhile Char.isDigit).isEmpty then none
        else some (-(digitsValue (r.takeWhile Char.isDigit) : Int), r.dropWhile Char.isDigit)
      | r =>
        if (r.takeWhile Char.isDigit).isEmpty then none
        else some ((digitsValue (r.takeWhile Char.isDigit) : Int), r.dropWhile Char.isDigit)
    else some (0, cs)
  | [] => some (0, [])

/-- Fraction part of a decimal literal: `.` and at least one digit. -/
def lexFraction (cs : List Char) : Option (List Char × List Char) :=
  match cs with
  | '.' :: r =>
    if (r.takeWhile Char.isDigit).isEmpty then none
    else some (r.takeWhile Char.isDigit, r.dropWhile Char.isDigit)
  | _ => some ([], cs)

/-- Whether the character after a numeric literal keeps the input in the
fragment: not a letter (an identifier glued to the number) and not a dot. -/
def endsNumber (cs : List Char) : Bool :=
  match cs with
  | [] => true
  | c :: _ => !(c.isAlpha || c = '.')

/-- A decimal literal at the head of `cs` (which starts with a digit): its value and
the rest of the input.  Literals with a superfluous leading zero (`00`, `09`,
`010`), a dot without digits on both sides, or an incomplete exponent are left
outside the fragment. -/
def lexNumber (cs : List Char) : Option (Double × List Char) :=
  let ip := cs.takeWhile Char.isDigit
  if ip.head? = some '0' ∧ 2 ≤ ip.length then none
  else
    match lexFraction (cs.dropWhile Char.isDigit) with
    | none => none
    | some (fp, r1) =>
      match lexExponent r1 with
      | none => none
      | some (ex, r2) => if endsNumber r2 then some (literalValue ip fp ex, r2) else none

/-- The value of an identifier of the fragment. -/
def identValue (name : List Char) : Option JSVal :=
  if name = "Infinity".toList then some (JSVal.number (Double.inf false))
  else if name = "NaN".toList then some (JSVal.number Double.nan)
  else if name = "undefined".toList then some JSVal.undefined
  else none

/-- The characters of the fragment: digits, ASCII letters and `+ - * / .`. -/
def inFragment (c : Char) : Bool :=
  c.isDigit || c.isAlpha || c = '+' || c = '-' || c = '*' || c = '/' || c = '.'

/-- Skip past the `*/` that closes a block comment: the rest of the input, a
SyntaxError when the comment is not closed, `unknown` when the comment holds a
character outside the fragment (such as a line terminator, which would matter
to the grammar). -/
def skipBlockComment : List Char → Res (List Char)
  | [] => Res.throw
  | '*' :: '/' :: rest => Res.ok rest
  | c :: rest => if inFragment c then skipBlockComment rest else Res.unknown

/-- Whether a character is a quantifier of the pattern grammar. -/
def isQuantifier (c : Char) : Bool := c = '+' || c = '*'

/-- Whether a regular expression body of the fragment is a valid pattern: made of
digits, letters, `.`, `-` (atoms) and `+`, `*` (quantifiers), with every
quantifier directly after an atom. -/
def validPattern : List Char → Bool
  | [] => true
  | c :: rest =>
    (c.isDigit || c.isAlpha || c = '.' || c = '-' || isQuantifier c) &&
    !(isQuantifier c && (match rest with | d :: _ => isQuantifier d | [] => false)) &&
    validPattern rest

/-- Values as the evaluator builds them: numbers in canonical form, regular
expression objects with the body the lexer accepts. -/
def JSVal.WellFormed : JSVal → Prop
  | JSVal.number d => d.Canonical
  | JSVal.regexp body =>
    body ≠ [] ∧ '/' ∉ body ∧ validPattern body = true ∧ isQuantifier (body.headD 'a') = false
  | _ => True

/-- The tokens of a program.  `operand` tells whether the syntactic grammar
expects an operand here, which is where `/` starts a regular expression literal
rather than a division.  A `//` comment runs to the end of the input.  Outside
the fragment (`unknown`): characters other than digits, ASCII letters and
`+ - * / .`; the punctuators `++`, `--`, `**`;
identifiers other than `Infinity`, `NaN`, `undefined`; regular expressions with
flags or with a quantifier that has nothing to repeat. -/
def lex : Nat → Bool → List Char → Res (List Token)
  | 0, _, _ => Res.unknown
  | _ + 1, _, [] => Res.ok []
  | fuel + 1, operand, c :: cs =>
    if c = '/' then
      match cs with
      | '/' :: comment => if comment.all inFragment then Res.ok [] else Res.unknown
      | '*' :: rest => (skipBlockComment rest).bind fun rest' => lex fuel operand rest'
      | _ =>
        if operand then
          match cs.dropWhile (fun x => x ≠ '/') with
          | [] => Res.throw
          | _ :: after =>
            let body := cs.takeWhile (fun x => x ≠ '/')
            if !validPattern body || isQuantifier (body.headD 'a') then Res.unknown
            else if (after.headD ' ').isAlpha then Res.unknown
            else (lex fuel false after).bind fun ts => Res.ok (Token.lit (JSVal.regexp body) :: ts)
        else (lex fuel true cs).bind fun ts => Res.ok (Token.op BinOp.slash :: ts)
    else if c = '+' then
      if cs.head? = some '+' then Res.unknown
      else (lex fuel true cs).bind fun ts => Res.ok (Token.op BinOp.plus :: ts)
    else if c = '-' then
      if cs.head? = some '-' then Res.unknown
      else (lex fuel true cs).bind fun ts => Res.ok (Token.op BinOp.minus :: ts)
    else if c = '*' then
      if cs.head? = some '*' then Res.unknown
      else (lex fuel true cs).bind fun ts => Res.ok (Token.op BinOp.star :: ts)
    else if c.isDigit then
      match lexNumber (c :: cs) with
      | none => Res.unknown
      | some (d, rest) =>
        (lex fuel false rest).bind fun ts => Res.ok (Token.lit (JSVal.number d) :: ts)
    else if c.isAlpha then
      match identValue ((c :: cs).takeWhile Char.isAlphanum) with
      | none => Res.unknown
      | some v =>
        (lex fuel false ((c :: cs).dropWhile Char.isAlphanum)).bind fun ts =>
          Res.ok (Token.lit v :: ts)
    else Res.unknown

/-! ## Syntactic grammar and evaluation -/

/-- UnaryExpression: prefix `+` and `-` applied to an operand.  Returns the value
and the remaining tokens. -/
def parseUnary : List Token → Res (JSVal × List Token)
  | [] => Res.throw
  | Token.lit v :: ts => Res.ok (v, ts)
  | Token.op BinOp.plus :: ts =>
    (parseUnary ts).bind fun vr =>
      vr.1.toNumber.bind fun x => Res.ok (JSVal.number x, vr.2)
  | Token.op BinOp.minus :: ts =>
    (parseUnary ts).bind fun vr =>
      vr.1.toNumber.bind fun x => Res.ok (JSVal.number x.neg, vr.2)
  | Token.op _ :: _ => Res.throw

/-- The tail of a MultiplicativeExpression whose left operand has value `lhs`. -/
def parseMulRest : Nat → JSVal → List Token → Res (JSVal × List Token)
  | 0, _, _ => Res.unknown
  | fuel + 1, lhs, ts =>
    match ts with
    | Token.op BinOp.star :: r =>
      (parseUnary r).bind fun vr =>
        (applyBinOp BinOp.star lhs vr.1).bind fun x => parseMulRest fuel x vr.2
    | Token.op BinOp.slash :: r =>
      (parseUnary r).bind fun vr =>
        (applyBinOp BinOp.slash lhs vr.1).bind fun x => parseMulRest fuel x vr.2
    | _ => Res.ok (lhs, ts)

/-- The tail of an AdditiveExpression whose left operand has value `lhs`; the
program ends with it. -/
def parseAddRest : Nat → JSVal → List Token → Res JSVal
  | 0, _, _ => Res.unknown
  | fuel + 1, lhs, ts =>
    match ts with
    | [] => Res.ok lhs
    | Token.op BinOp.plus :: r =>
      (parseUnary r).bind fun vr =>
        (parseMulRest fuel vr.1 vr.2).bind fun tr =>
          (applyBinOp BinOp.plus lhs tr.1).bind fun x => parseAddRest fuel x tr.2
    | Token.op BinOp.minus :: r =>
      (parseUnary r).bind fun vr =>
        (parseMulRest fuel vr.1 vr.2).bind fun tr =>
          (applyBinOp BinOp.minus lhs tr.1).bind fun x => parseAddRest fuel x tr.2
    | _ => Res.throw

/-- A Script: nothing (completion value `undefined`), or one expression
statement ended by the end of input. -/
def evalTokens (ts : List Token) : Res JSVal :=
  match ts with
  | [] => Res.ok JSVal.undefined
  | _ =>
    (parseUnary ts).bind fun vr =>
      (parseMulRest (ts.length + 1) vr.1 vr.2).bind fun tr =>
        parseAddRest (ts.length + 1) tr.1 tr.2

/-- ECMAScript evaluation of a program text of the fragment. -/
def evalProgram (program : QString) : Res JSVal :=
  (lex (program.length + 1) true program).bind evalTokens

/-- Reference semantics of `QJSEngine::evaluate` followed by the observation
`isError()` / `toString()`, on the modelled fragment of ECMAScript; `none`
outside. -/
def ecmaEvaluate (program : QString) : Option QJSValue :=
  match evalProgram program with
  | Res.ok v => some (QJSValue.value v.toString)
  | Res.throw => some QJSValue.error
  | Res.unknown => none

/-- The external engine agrees with the reference semantics wherever the latter
is defined. -/
def Conforms (engine : QString → QJSValue) : Prop :=
  ∀ program v, ecmaEvaluate program = some v → engine program = v

/-- The reference semantics as a total engine: outside the fragment it reports
an error. -/
def fragmentEngine (program : QString) : QJSValue :=
  (ecmaEvaluate program).getD QJSValue.error

/-- Texts of results that are not strings: the text of a number (any binary64
datum, printed by Number::toString), of `undefined`, or of a regular expression
object (`/body/`, the body a valid pattern of the fragment). -/
def IsValueText (r : QString) : Prop :=
  ∃ v : JSVal, v.WellFormed ∧ (∀ s, v ≠ JSVal.string s) ∧ r = v.toString

/-- A conforming engine that differs from `fragmentEngine` outside the fragment:
it reads the program `010` as the legacy octal literal of ECMA-262 Annex B, with
value 8. -/
def legacyOctalEngine (program : QString) : QJSValue :=
  if program = "010".toList then QJSValue.value "8".toList else fragmentEngine program

/-! ## Reachable states -/

/-- The characters the 14 literal buttons can append. -/
def alphabet : List Char := "0123456789+-*/".toList

/-- The text of the most recent evaluation after a click on `label` in state `c`:
a click on `=` replaces it by the text of the new result, or by `none` when the
evaluation is an error; other clicks keep it. -/
def lastResultAfter (engine : QString → QJSValue) (label : QString) (c : Calculator)
    (last : Option QString) : Option QString :=
  if label = "=".toList then
    match engine c.expression with
    | QJSValue.value r => some r
    | QJSValue.error => none
  else last

/-- States reachable from startup by clicks on the 16 buttons, together with the
text of the last evaluation result. -/
inductive Reachable (engine : QString → QJSValue) : Calculator → Option QString → Prop where
  | startup : Reachable engine startup none
  | click (c : Calculator) (last : Option QString) (label : QString) :
      label ∈ buttons → Reachable engine c last →
      Reachable engine (press engine label c) (lastResultAfter engine label c last)

/-! ## Controller: facts that hold for every engine -/

theorem press_clear (engine : QString → QJSValue) (c : Calculator) :
    press engine "C".toList c = startup := by
  simp [press, handleButton, startup]

theorem press_equals (engine : QString → QJSValue) (c : Calculator) :
    press engine "=".toList c = evaluateExpression engine c := by
  have h : ("=".toList = "C".toList) = False := by decide
  simp [press, handleButton, h]

theorem press_other (engine : QString → QJSValue) (label : QString) (c : Calculator)
    (hC : label ≠ "C".toList) (hE : label ≠ "=".toList) :
    press engine label c =
      { display := c.expression ++ label, expression := c.expression ++ label } := by
  unfold press handleButton
  simp only [if_neg hC, if_neg hE]

theorem evaluateExpression_value (engine : QString → QJSValue) (c : Calculator) (r : QString)
    (hr : engine c.expression = QJSValue.value r) :
    evaluateExpression engine c = { display := r, expression := r } := by
  simp [evaluateExpression, hr]

theorem evaluateExpression_error (engine : QString → QJSValue) (c : Calculator)
    (he : engine c.expression = QJSValue.error) :
    evaluateExpression engine c = { display := "Error".toList, expression := [] } := by
  simp [evaluateExpression, he]

theorem pressAll_append (engine : QString → QJSValue) (p s : List QString) (c : Calculator) :
    pressAll engine (p ++ s) c = pressAll engine s (pressAll engine p c) := by
  simp [pressAll, List.foldl_append]

theorem pressAll_cons (engine : QString → QJSValue) (l : QString) (s : List QString)
    (c : Calculator) :
    pressAll engine (l :: s) c = pressAll engine s (press engine l c) := rfl

theorem literal_not_command (t : QString) (ht : t ∈ literalLabels) :
    t ≠ "C".toList ∧ t ≠ "=".toList ∧ t.length = 1 ∧ ∀ ch ∈ t, ch ∈ alphabet := by
  revert t
  decide

theorem button_cases (l : QString) (hl : l ∈ buttons) :
    l = "C".toList ∨ l = "=".toList ∨ l ∈ literalLabels := by
  revert l
  decide

/-- C1: pressing `=` does exactly one of two things, according to the engine's
verdict on the buffer: when the result is not an error and has text `r`, buffer
and display become `r`; when it is an error, the buffer becomes empty and the
display reads `Error`.  One of the two cases always applies. -/
theorem c1_equals_two_outcomes (engine : QString → QJSValue) (c : Calculator) :
    handleButton engine (some "=".toList) c = evaluateExpression engine c ∧
    (∀ r, engine c.expression = QJSValue.value r →
      handleButton engine (some "=".toList) c = { display := r, expression := r }) ∧
    (engine c.expression = QJSValue.error →
      handleButton engine (some "=".toList) c =
        { display := "Error".toList, expression := [] }) ∧
    ((∃ r, engine c.expression = QJSValue.value r) ∨ engine c.expression = QJSValue.error) := by
  have h := press_equals engine c
  unfold press at h
  refine ⟨h, ?_, ?_, ?_⟩
  · intro r hr
    rw [h, evaluateExpression_value engine c r hr]
  · intro he
    rw [h, evaluateExpression_error engine c he]
  · cases engine c.expression with
    | error => exact Or.inr rfl
    | value r => exact Or.inl ⟨r, rfl⟩

/-- C4: for every state and every one of the 14 literal labels, the press
appends that single character to the buffer and shows the new buffer; so right
after a successful `=` with result text `r`, pressing `t` gives `r` followed by
`t` in both. -/
theorem c4_literal_appends (engine : QString → QJSValue) (c : Calculator) (t : QString)
    (ht : t ∈ literalLabels) :
    t.length = 1 ∧
    handleButton engine (some t) c =
      { display := c.expression ++ t, expression := c.expression ++ t } ∧
    (∀ r, engine c.expression = QJSValue.value r →
      handleButton engine (some t) (handleButton engine (some "=".toList) c) =
        { display := r ++ t, expression := r ++ t }) := by
  obtain ⟨hC, hE, hlen, _⟩ := literal_not_command t ht
  have hp : ∀ c', handleButton engine (some t) c' =
      { display := c'.expression ++ t, expression := c'.expression ++ t } :=
    fun c' => press_other engine t c' hC hE
  refine ⟨hlen, hp c, ?_⟩
  intro r hr
  have he := press_equals engine c
  unfold press at he
  rw [hp, he, evaluateExpression_value engine c r hr]

/-- Witness for C4: the label `7` pressed on the buffer `12`. -/
theorem c4_literal_appends_witness :
    "7".toList ∈ literalLabels ∧
    handleButton fragmentEngine (some "7".toList)
        { display := "12".toList, expression := "12".toList } =
      { display := "127".toList, expression := "127".toList } :=
  ⟨by decide,
   (c4_literal_appends fragmentEngine { display := "12".toList, expression := "12".toList }
      "7".toList (by decide)).2.1⟩

/-- C5: from every state `C` leads to the startup state (empty buffer, empty
display), so for all label sequences `p` and `s`, from any state, pressing `p`,
`C`, `s` ends where pressing `s` from startup ends; the engine is a function of
the buffer alone. -/
theorem c5_clear_resets (engine : QString → QJSValue) (c : Calculator) (p s : List QString) :
    handleButton engine (some "C".toList) c = { display := [], expression := [] } ∧
    handleButton engine (some "C".toList) c = startup ∧
    pressAll engine (p ++ "C".toList :: s) c = pressAll engine s startup := by
  have h := press_clear engine
  refine ⟨h c, h c, ?_⟩
  rw [pressAll_append, pressAll_cons, h]

/-- C6: in every state reachable from startup by presses of the 16 buttons, the
display equals the buffer, or the text of the last evaluation result, or the
literal `Error`.  (The first or the third always holds.) -/
theorem c6_display_forms (engine : QString → QJSValue) (c : Calculator)
    (last : Option QString) (h : Reachable engine c last) :
    (c.display = c.expression ∨ last = some c.display ∨ c.display = "Error".toList) ∧
    (c.display = c.expression ∨ c.display = "Error".toList) := by
  have key : c.display = c.expression ∨ c.display = "Error".toList := by
    induction h with
    | startup => exact Or.inl rfl
    | click c last label hl _ _ =>
      rcases button_cases label hl with hC | hE | hlit
      · subst hC
        rw [press_clear]
        exact Or.inl rfl
      · subst hE
        rw [press_equals]
        unfold evaluateExpression
        cases engine c.expression with
        | error => exact Or.inr rfl
        | value r => exact Or.inl rfl
      · obtain ⟨hC, hE, _, _⟩ := literal_not_command label hlit
        rw [press_other engine label c hC hE]
        exact Or.inl rfl
  exact ⟨key.elim Or.inl (fun h => Or.inr (Or.inr h)), key⟩

/-- Witness for C6: the state after `7 =`. -/
theorem c6_display_forms_witness :
    Reachable fragmentEngine
      (press fragmentEngine "=".toList (press fragmentEngine "7".toList startup))
      (lastResultAfter fragmentEngine "=".toList (press fragmentEngine "7".toList startup)
        (lastResultAfter fragmentEngine "7".toList startup none)) ∧
    ((press fragmentEngine "=".toList (press fragmentEngine "7".toList startup)).display =
      (press fragmentEngine "=".toList (press fragmentEngine "7".toList startup)).expression ∨
     (press fragmentEngine "=".toList (press fragmentEngine "7".toList startup)).display =
      "Error".toList) :=
  ⟨Reachable.click _ _ _ (by decide) (Reachable.click _ _ _ (by decide) Reachable.startup),
   (c6_display_forms fragmentEngine _ _
      (Reachable.click _ _ _ (by decide)
        (Reachable.click _ _ _ (by decide) Reachable.startup))).2⟩

/-- C7 (amended): in every state reachable from startup by presses of the 16
buttons, the buffer is a string over `0-9 + - * /`, or the text of the last
evaluation result (which is a non-error result of the engine) followed by such a
string. -/
theorem c7_buffer_shape (engine : QString → QJSValue) (c : Calculator)
    (last : Option QString) (h : Reachable engine c last) :
    (∃ typed : QString, (∀ ch ∈ typed, ch ∈ alphabet) ∧
      (c.expression = typed ∨ ∃ r, last = some r ∧ c.expression = r ++ typed)) ∧
    (∀ r, last = some r → ∃ e, engine e = QJSValue.value r) := by
  induction h with
  | startup =>
    exact ⟨⟨[], by simp, Or.inl rfl⟩, by simp⟩
  | click c last label hl _ ih =>
    obtain ⟨⟨typed, htyped, hshape⟩, hlast⟩ := ih
    rcases button_cases label hl with hC | hE | hlit
    · subst hC
      rw [press_clear]
      refine ⟨⟨[], by simp, Or.inl rfl⟩, ?_⟩
      have : lastResultAfter engine "C".toList c last = last := by
        have h : ("C".toList = "=".toList) = False := by decide
        simp [lastResultAfter, h]
      rw [this]
      exact hlast
    · subst hE
      rw [press_equals]
      unfold evaluateExpression lastResultAfter
      simp only [if_true]
      cases hres : engine c.expression with
      | error => exact ⟨⟨[], by simp, Or.inl rfl⟩, by simp⟩
      | value r =>
        refine ⟨⟨[], by simp, Or.inr ⟨r, rfl, by simp⟩⟩, ?_⟩
        intro r' hr'
        simp only [Option.some.injEq] at hr'
        subst hr'
        exact ⟨c.expression, hres⟩
    · obtain ⟨hC, hE, _, halpha⟩ := literal_not_command label hlit
      rw [press_other engine label c hC hE]
      have hl' : lastResultAfter engine label c last = last := by
        unfold lastResultAfter
        simp only [if_neg hE]
      rw [hl']
      refine ⟨⟨typed ++ label, ?_, ?_⟩, hlast⟩
      · intro ch hch
        rcases List.mem_append.mp hch with h1 | h2
        · exact htyped ch h1
        · exact halpha ch h2
      · rcases hshape with h1 | ⟨r, hr, h2⟩
        · exact Or.inl (by simp [h1])
        · exact Or.inr ⟨r, hr, by simp [h2]⟩

/-- Witness for C7 (amended): the state after `7 =`. -/
theorem c7_buffer_shape_witness :
    ∃ typed : QString, (∀ ch ∈ typed, ch ∈ alphabet) ∧
      ((press fragmentEngine "=".toList (press fragmentEngine "7".toList startup)).expression
          = typed ∨
        ∃ r, lastResultAfter fragmentEngine "=".toList (press fragmentEngine "7".toList startup)
            (lastResultAfter fragmentEngine "7".toList startup none) = some r ∧
          (press fragmentEngine "=".toList (press fragmentEngine "7".toList startup)).expression
            = r ++ typed) :=
  (c7_buffer_shape fragmentEngine _ _
    (Reachable.click _ _ _ (by decide)
      (Reachable.click _ _ _ (by decide) Reachable.startup))).1

/-- C9 (amended): an event whose sender is not a push button is ignored; an
event from a button whose label is neither `C` nor `=` appends that label to the
buffer and shows the new buffer, whether or not the label is one of the 14
literal tokens. -/
theorem c9_other_labels_append (engine : QString → QJSValue) (c : Calculator)
    (label : QString) (hC : label ≠ "C".toList) (hE : label ≠ "=".toList) :
    handleButton engine none c = c ∧
    handleButton engine (some label) c =
      { display := c.expression ++ label, expression := c.expression ++ label } :=
  ⟨rfl, press_other engine label c hC hE⟩

/-- Witness for C9 (amended): the label `x` on the buffer `1`. -/
theorem c9_other_labels_append_witness :
    "x".toList ≠ "C".toList ∧ "x".toList ≠ "=".toList ∧
    handleButton fragmentEngine (some "x".toList)
        { display := "1".toList, expression := "1".toList } =
      { display := "1x".toList, expression := "1x".toList } :=
  ⟨by decide, by decide,
   (c9_other_labels_append fragmentEngine { display := "1".toList, expression := "1".toList }
      "x".toList (by decide) (by decide)).2⟩

/-- C9 fails as stated: the label `x`, which is none of the 16 known labels,
changes buffer and display. -/
theorem c9_counterexample :
    "x".toList ∉ buttons ∧
    handleButton fragmentEngine (some "x".toList) startup =
      { display := "x".toList, expression := "x".toList } ∧
    handleButton fragmentEngine (some "x".toList) startup ≠ startup := by
  decide

/-- C10: the placement loop puts label `i` of the button list at row
`1 + i / 4`, column `i % 4`; columns are 0..3 and rows 1..4, no two buttons share
a cell, and the cells read row by row give `7 8 9 /`, `4 5 6 *`, `1 2 3 -`,
`0 C = +`. -/
theorem c10_grid_layout :
    grid.length = 16 ∧
    (∀ i : Fin 16, grid.get? i.val =
      (buttons.get? i.val).map (fun t => { text := t, row := 1 + i.val / 4, col := i.val % 4 })) ∧
    (∀ p ∈ grid, p.col ≤ 3 ∧ 1 ≤ p.row ∧ p.row ≤ 4) ∧
    (grid.map (fun p => (p.row, p.col))).Nodup ∧
    [1, 2, 3, 4].map (fun r => [0, 1, 2, 3].map (fun k => cellAt grid r k)) =
      [ [some "7".toList, some "8".toList, some "9".toList, some "/".toList],
        [some "4".toList, some "5".toList, some "6".toList, some "*".toList],
        [some "1".toList, some "2".toList, some "3".toList, some "-".toList],
        [some "0".toList, some "C".toList, some "=".toList, some "+".toList] ] := by
  refine ⟨by decide, by decide, by decide, by decide, by decide⟩

/-! ## The reference engine on concrete programs -/

theorem conforms_fragmentEngine : Conforms fragmentEngine := by
  intro program v h
  simp [fragmentEngine, h]

/-- C2 fails as stated: after `9 / 0 =` the display reads `Infinity`, not
`Error`, and the buffer is not empty. -/
theorem c2_counterexample :
    pressAll fragmentEngine ["9".toList, "/".toList, "0".toList, "=".toList] startup =
      { display := "Infinity".toList, expression := "Infinity".toList } ∧
    ecmaEvaluate "9/0".toList = some (QJSValue.value "Infinity".toList) := by
  decide!

/-- C3 fails as stated: `=` at startup shows `undefined`, not `Error`, and the
buffer is not left empty. -/
theorem c3_counterexample :
    pressAll fragmentEngine ["=".toList] startup =
      { display := "undefined".toList, expression := "undefined".toList } ∧
    ecmaEvaluate [] = some (QJSValue.value "undefined".toList) := by
  decide!

/-- C7 fails as stated: after `1 / 2 =` the buffer is `0.5`, and `.` is not in
the alphabet. -/
theorem c7_counterexample :
    (pressAll fragmentEngine ["1".toList, "/".toList, "2".toList, "=".toList] startup).expression
      = "0.5".toList ∧
    '.' ∉ alphabet := by
  decide!

/-- C8 fails as stated: evaluating `/1/+1` is ok with text `/1/1`, evaluating
`/1/1` is an error; after `/ 1 / + 1 =` a second `=` changes buffer and display. -/
theorem c8_counterexample :
    ecmaEvaluate "/1/+1".toList = some (QJSValue.value "/1/1".toList) ∧
    ecmaEvaluate "/1/1".toList = some QJSValue.error ∧
    pressAll fragmentEngine
        ["/".toList, "1".toList, "/".toList, "+".toList, "1".toList, "=".toList] startup =
      { display := "/1/1".toList, expression := "/1/1".toList } ∧
    pressAll fragmentEngine
        ["/".toList, "1".toList, "/".toList, "+".toList, "1".toList, "=".toList, "=".toList]
        startup =
      { display := "Error".toList, expression := [] } := by
  decide!

/-! ## Binary length -/

theorem bitLengthAux_spec (fuel : Nat) : ∀ n, n ≤ fuel → n ≠ 0 →
    2 ^ (bitLengthAux fuel n - 1) ≤ n ∧ n < 2 ^ bitLengthAux fuel n ∧
      1 ≤ bitLengthAux fuel n := by
  induction fuel with
  | zero => intro n h0 hn; omega
  | succ fuel ih =>
    intro n hle hn
    unfold bitLengthAux
    simp only [if_neg hn]
    by_cases h2 : n / 2 = 0
    · have h1 : n = 1 := by omega
      subst h1
      cases fuel with
      | zero => simp [bitLengthAux]
      | succ f => simp [bitLengthAux]
    · obtain ⟨ha, hb, hc⟩ := ih (n / 2) (by omega) h2
      refine ⟨?_, ?_, by omega⟩
      · have : bitLengthAux fuel (n / 2) + 1 - 1 = (bitLengthAux fuel (n / 2) - 1) + 1 := by omega
        rw [this, pow_succ]
        omega
      · rw [pow_succ]
        omega

theorem bitLength_spec (n : Nat) (hn : n ≠ 0) :
    2 ^ (bitLength n - 1) ≤ n ∧ n < 2 ^ bitLength n ∧ 1 ≤ bitLength n :=
  bitLengthAux_spec n n (le_refl n) hn

/-! ## Rounding a positive integer -/

theorem le_divRoundEven (a b : Nat) : a / b ≤ divRoundEven a b := by
  unfold divRoundEven
  simp only []
  split_ifs <;> omega

theorem roundToDouble_nat_pos (num : Nat) (hnum : num ≠ 0) :
    roundToDouble false num 1 = Double.inf false ∨
      ∃ m e, m ≠ 0 ∧ roundToDouble false num 1 = Double.fin false m e := by
  obtain ⟨hlo, _, hbl⟩ := bitLength_spec num hnum
  have hb1 : bitLength 1 = 1 := by decide
  have hlg : floorLog2 num 1 ≤ (bitLength num : Int) - 1 := by
    unfold floorLog2
    simp only [hb1]
    split_ifs <;> omega
  unfold roundToDouble
  simp only [if_neg hnum]
  generalize he : max (floorLog2 num 1 - 52) (-1074) = e
  have hmpos : scaledQuotient num 1 e ≠ 0 := by
    unfold scaledQuotient
    split_ifs with h0
    · have hq := le_divRoundEven num (1 * 2 ^ e.toNat)
      have hle : 2 ^ e.toNat ≤ num := by
        refine le_trans (Nat.pow_le_pow_right (by norm_num) ?_) hlo
        omega
      have : 1 ≤ num / (1 * 2 ^ e.toNat) := by
        rw [one_mul]
        exact (Nat.one_le_div_iff (by positivity)).mpr hle
      omega
    · have hq := le_divRoundEven (num * 2 ^ (-e).toNat) 1
      have : 1 ≤ num * 2 ^ (-e).toNat := Nat.mul_pos (by omega) (by positivity)
      rw [Nat.div_one] at hq
      omega
  split_ifs with h53 h971 h971
  · exact Or.inl rfl
  · exact Or.inr ⟨_, _, by norm_num, rfl⟩
  · exact Or.inl rfl
  · exact Or.inr ⟨_, _, hmpos, rfl⟩

/-! ## Lexing digit strings -/

theorem takeWhile_isDigit_append (a rest : List Char) (ha : ∀ ch ∈ a, ch.isDigit = true)
    (hr : ∀ ch, rest.head? = some ch → ch.isDigit = false) :
    (a ++ rest).takeWhile Char.isDigit = a ∧ (a ++ rest).dropWhile Char.isDigit = rest := by
  induction a with
  | nil =>
    cases rest with
    | nil => simp
    | cons r rs =>
      have := hr r rfl
      simp [List.takeWhile, List.dropWhile, this]
  | cons c cs ih =>
    have hc := ha c (List.mem_cons_self _ _)
    have := ih (fun ch h => ha ch (List.mem_cons_of_mem _ h))
    simp [List.takeWhile, List.dropWhile, hc, this]

theorem isDigit_ne (c : Char) (hc : c.isDigit = true) :
    c ≠ '/' ∧ c ≠ '+' ∧ c ≠ '-' ∧ c ≠ '*' ∧ c ≠ '.' ∧ c ≠ 'e' ∧ c ≠ 'E' := by
  refine ⟨?_, ?_, ?_, ?_, ?_, ?_, ?_⟩ <;>
  · rintro rfl
    exact absurd hc (by decide)

theorem lex_digit (fuel : Nat) (operand : Bool) (c : Char) (cs : List Char)
    (hc : c.isDigit = true) :
    lex (fuel + 1) operand (c :: cs) =
      match lexNumber (c :: cs) with
      | none => Res.unknown
      | some (d, rest) =>
        (lex fuel false rest).bind fun ts => Res.ok (Token.lit (JSVal.number d) :: ts) := by
  obtain ⟨h1, h2, h3, h4, _, _, _⟩ := isDigit_ne c hc
  simp only [lex, if_neg h1, if_neg h2, if_neg h3, if_neg h4, hc, if_true]

theorem lexNumber_integer (a rest : List Char) (ha : ∀ ch ∈ a, ch.isDigit = true)
    (hlead : ¬ (a.head? = some '0' ∧ 2 ≤ a.length))
    (hr : ∀ ch, rest.head? = some ch →
      ch.isDigit = false ∧ ch.isAlpha = false ∧ ch ≠ '.') :
    lexNumber (a ++ rest) = some (literalValue a [] 0, rest) := by
  obtain ⟨ht, hd⟩ := takeWhile_isDigit_append a rest ha (fun ch h => (hr ch h).1)
  unfold lexNumber
  simp only [ht, hd, if_neg hlead]
  cases rest with
  | nil => simp [lexFraction, lexExponent, endsNumber]
  | cons r rs =>
    obtain ⟨_, h2, h3⟩ := hr r rfl
    have h4 : ¬ (r = 'e' ∨ r = 'E') := by
      rintro (rfl | rfl) <;> exact absurd h2 (by decide)
    have hf : lexFraction (r :: rs) = some ([], r :: rs) := by
      unfold lexFraction
      split
      · rename_i heq
        simp only [List.cons.injEq] at heq
        exact absurd heq.1 h3
      · rfl
    simp [hf, lexExponent, h4, endsNumber, h2, h3]

theorem digitsValue_foldl_le (cs : List Char) (acc : Nat) :
    acc ≤ cs.foldl (fun acc c => 10 * acc + (c.toNat - 48)) acc := by
  induction cs generalizing acc with
  | nil => simp
  | cons c cs ih =>
    simp only [List.foldl_cons]
    exact le_trans (by omega) (ih _)

theorem isDigit_toNat (c : Char) (hc : c.isDigit = true) : 48 ≤ c.toNat ∧ c.toNat ≤ 57 := by
  simp only [Char.isDigit, Bool.and_eq_true, decide_eq_true_eq] at hc
  obtain ⟨h1, h2⟩ := hc
  rw [ge_iff_le, UInt32.le_def] at h1
  rw [UInt32.le_def] at h2
  exact ⟨h1, h2⟩

theorem eq_zero_char_of_toNat (c : Char) (h : c.toNat = 48) : c = '0' := by
  apply Char.ext
  apply UInt32.ext
  exact h

theorem digitsValue_pos (a : List Char) (ha : ∀ ch ∈ a, ch.isDigit = true)
    (hne : a ≠ []) (hlead : a.head? ≠ some '0') : digitsValue a ≠ 0 := by
  cases a with
  | nil => exact absurd rfl hne
  | cons c cs =>
    have hc := isDigit_toNat c (ha c (List.mem_cons_self _ _))
    have hc0 : c.toNat ≠ 48 := by
      intro h
      exact hlead (by simp [eq_zero_char_of_toNat c h])
    unfold digitsValue
    simp only [List.foldl_cons]
    have := digitsValue_foldl_le cs (10 * 0 + (c.toNat - 48))
    omega

theorem evalProgram_div_zero (a : List Char) (ha : ∀ ch ∈ a, ch.isDigit = true)
    (hne : a ≠ []) (hlead : ¬ (a.head? = some '0' ∧ 2 ≤ a.length)) :
    evalProgram (a ++ "/0".toList) =
      Res.ok (JSVal.number ((literalValue a [] 0).div (Double.fin false 0 (-1074)))) := by
  have hnum : lexNumber (a ++ "/0".toList) = some (literalValue a [] 0, "/0".toList) :=
    lexNumber_integer a _ ha hlead (by
      intro ch h
      simp only [String.toList, List.head?_cons, Option.some.injEq] at h
      subst h
      decide)
  have hzero : lexNumber ['0'] = some (Double.fin false 0 (-1074), []) := by decide
  cases a with
  | nil => exact absurd rfl hne
  | cons c cs =>
    have hc := ha c (List.mem_cons_self _ _)
    have hlen : ((c :: cs) ++ "/0".toList).length + 1 = (cs.length + 3) + 1 := by
      simp [String.toList]
    unfold evalProgram
    rw [hlen]
    rw [List.cons_append] at hnum ⊢
    rw [lex_digit _ _ _ _ hc, hnum]
    have h0 : lex (cs.length + 1 + 1) true ['0'] =
        Res.ok [Token.lit (JSVal.number (Double.fin false 0 (-1074)))] := by
      rw [lex_digit _ _ _ _ (by decide), hzero]
      simp [lex, Res.bind]
    have h2 : lex (cs.length + 3) false "/0".toList =
        Res.ok [Token.op BinOp.slash, Token.lit (JSVal.number (Double.fin false 0 (-1074)))] := by
      show lex (cs.length + 2 + 1) false ['/', '0'] = _
      rw [lex]
      · simp [h0, Res.bind]
      · simp
      · simp
    simp only [h2, Res.bind, evalTokens, parseUnary, parseMulRest, parseAddRest, applyBinOp,
      JSVal.toNumber, List.length_cons]

theorem div_zero_text (n : Nat) :
    ((roundToDouble false n 1).div (Double.fin false 0 (-1074))).toString =
      if n = 0 then "NaN".toList else "Infinity".toList := by
  by_cases hn : n = 0
  · subst hn
    decide
  · rw [if_neg hn]
    rcases roundToDouble_nat_pos n hn with h | ⟨m, e, hm, h⟩
    · rw [h]
      rfl
    · rw [h]
      simp [Double.div, hm, Double.toString]

/-- C2 (amended): for a decimal literal `a` typed with the digit buttons and
written without a superfluous leading zero, `a/0` does not evaluate to an error
in an engine that conforms to ECMAScript: pressing `=` on it sets display and
buffer to `Infinity`, or to `NaN` when `a` is `0`. -/
theorem c2_division_by_zero (engine : QString → QJSValue) (hc : Conforms engine)
    (a d : QString) (hne : a ≠ []) (hdig : ∀ ch ∈ a, ch.isDigit = true)
    (hlead : a = "0".toList ∨ a.head? ≠ some '0') :
    engine (a ++ "/0".toList) =
      QJSValue.value (if a = "0".toList then "NaN".toList else "Infinity".toList) ∧
    handleButton engine (some "=".toList) { display := d, expression := a ++ "/0".toList } =
      { display := if a = "0".toList then "NaN".toList else "Infinity".toList,
        expression := if a = "0".toList then "NaN".toList else "Infinity".toList } := by
  have hl : ¬ (a.head? = some '0' ∧ 2 ≤ a.length) := by
    rcases hlead with h | h
    · subst h
      decide
    · exact fun h' => h h'.1
  have hev := evalProgram_div_zero a hdig hne hl
  have hval : literalValue a [] 0 = roundToDouble false (digitsValue a) 1 := by
    simp [literalValue, timesPow10]
  have hzero : digitsValue a = 0 ↔ a = "0".toList := by
    constructor
    · intro h0
      rcases hlead with h | h
      · exact h
      · exact absurd h0 (digitsValue_pos a hdig hne h)
    · intro h
      subst h
      decide
  have htext : ((literalValue a [] 0).div (Double.fin false 0 (-1074))).toString =
      if a = "0".toList then "NaN".toList else "Infinity".toList := by
    rw [hval, div_zero_text]
    by_cases h : a = "0".toList
    · rw [if_pos h, if_pos (hzero.mpr h)]
    · rw [if_neg h, if_neg (fun h' => h (hzero.mp h'))]
  have heng : engine (a ++ "/0".toList) =
      QJSValue.value (if a = "0".toList then "NaN".toList else "Infinity".toList) := by
    apply hc
    unfold ecmaEvaluate
    rw [hev]
    simp only [JSVal.toString, htext]
  refine ⟨heng, ?_⟩
  have hp := press_equals engine { display := d, expression := a ++ "/0".toList }
  unfold press at hp
  rw [hp, evaluateExpression_value engine _ _ heng]

/-- Witness for C2 (amended): the literal `12`. -/
theorem c2_division_by_zero_witness :
    fragmentEngine "12/0".toList = QJSValue.value "Infinity".toList :=
  (c2_division_by_zero fragmentEngine conforms_fragmentEngine "12".toList []
    (by decide) (by decide) (Or.inr (by decide))).1

/-- C3 (amended): in an engine that conforms to ECMAScript the empty program
evaluates to the undefined value, which is not an error: pressing `=` on the
empty buffer sets display and buffer to `undefined`. -/
theorem c3_empty_buffer (engine : QString → QJSValue) (hc : Conforms engine) (d : QString) :
    engine [] = QJSValue.value "undefined".toList ∧
    handleButton engine (some "=".toList) { display := d, expression := [] } =
      { display := "undefined".toList, expression := "undefined".toList } := by
  have heng : engine [] = QJSValue.value "undefined".toList := hc [] _ (by decide)
  refine ⟨heng, ?_⟩
  have hp := press_equals engine { display := d, expression := [] }
  unfold press at hp
  rw [hp, evaluateExpression_value engine _ _ heng]

/-- Witness for C3 (amended): `=` right after a failed `=`. -/
theorem c3_empty_buffer_witness :
    handleButton fragmentEngine (some "=".toList)
        { display := "Error".toList, expression := [] } =
      { display := "undefined".toList, expression := "undefined".toList } :=
  (c3_empty_buffer fragmentEngine conforms_fragmentEngine "Error".toList).2

/-! ## Rounding: bounds on the result -/

theorem divRoundEven_ge (a b L : Nat) (h : L * b ≤ a) (hb : 0 < b) : L ≤ divRoundEven a b :=
  le_trans ((Nat.le_div_iff_mul_le hb).mpr h) (le_divRoundEven a b)

theorem divRoundEven_le (a b U : Nat) (h : a ≤ U * b) (hb : 0 < b) : divRoundEven a b ≤ U := by
  have hdm := Nat.div_add_mod a b
  have hq : a / b ≤ U := by
    calc a / b ≤ U * b / b := Nat.div_le_div_right h
      _ = U := Nat.mul_div_cancel _ hb
  have hstrict : 0 < a % b → a / b < U := by
    intro hr
    by_contra hcon
    have hUq : U = a / b := by omega
    rw [hUq] at h
    have : b * (a / b) = a / b * b := Nat.mul_comm _ _
    omega
  unfold divRoundEven
  simp only []
  split_ifs <;> omega

theorem zpow_toNat_of_nonneg (e : Int) (h : 0 ≤ e) : ((2 : ℚ) ^ e.toNat) = (2 : ℚ) ^ e := by
  rw [← zpow_natCast, Int.toNat_of_nonneg h]

theorem zpow_toNat_of_neg (e : Int) (h : ¬ 0 ≤ e) :
    ((2 : ℚ) ^ (-e).toNat) * (2 : ℚ) ^ e = 1 := by
  rw [← zpow_natCast, Int.toNat_of_nonneg (by omega), ← zpow_add₀ (by norm_num)]
  simp

theorem scaledQuotient_ge (num den : Nat) (e : Int) (L : Nat) (hden : 0 < den)
    (h : (L : ℚ) * den * 2 ^ e ≤ num) : L ≤ scaledQuotient num den e := by
  unfold scaledQuotient
  split_ifs with h0
  · apply divRoundEven_ge _ _ _ _ (by positivity)
    have : ((L * (den * 2 ^ e.toNat) : Nat) : ℚ) ≤ (num : ℚ) := by
      push_cast
      rw [zpow_toNat_of_nonneg e h0]
      linarith
    exact_mod_cast this
  · apply divRoundEven_ge _ _ _ _ hden
    have h1 := zpow_toNat_of_neg e h0
    have hp : (0 : ℚ) < 2 ^ (-e).toNat := by positivity
    have : ((L * den : Nat) : ℚ) ≤ ((num * 2 ^ (-e).toNat : Nat) : ℚ) := by
      push_cast
      calc (L : ℚ) * den = (L * den * 2 ^ e) * 2 ^ (-e).toNat := by
            rw [mul_assoc, mul_comm ((2 : ℚ) ^ e), h1, mul_one]
        _ ≤ num * 2 ^ (-e).toNat := by
            exact mul_le_mul_of_nonneg_right h hp.le
    exact_mod_cast this

theorem scaledQuotient_le (num den : Nat) (e : Int) (U : Nat) (hden : 0 < den)
    (h : (num : ℚ) ≤ (U : ℚ) * den * 2 ^ e) : scaledQuotient num den e ≤ U := by
  unfold scaledQuotient
  split_ifs with h0
  · apply divRoundEven_le _ _ _ _ (by positivity)
    have : (num : ℚ) ≤ ((U * (den * 2 ^ e.toNat) : Nat) : ℚ) := by
      push_cast
      rw [zpow_toNat_of_nonneg e h0]
      linarith
    exact_mod_cast this
  · apply divRoundEven_le _ _ _ _ hden
    have h1 := zpow_toNat_of_neg e h0
    have hp : (0 : ℚ) < 2 ^ (-e).toNat := by positivity
    have : ((num * 2 ^ (-e).toNat : Nat) : ℚ) ≤ ((U * den : Nat) : ℚ) := by
      push_cast
      calc (num : ℚ) * 2 ^ (-e).toNat ≤ (U * den * 2 ^ e) * 2 ^ (-e).toNat :=
            mul_le_mul_of_nonneg_right h hp.le
        _ = U * den := by
            rw [mul_assoc, mul_comm ((2 : ℚ) ^ e), h1, mul_one]
    exact_mod_cast this

theorem floorLog2_spec (num den : Nat) (hnum : num ≠ 0) (hden : den ≠ 0) :
    (den : ℚ) * 2 ^ (floorLog2 num den) ≤ num ∧
      (num : ℚ) < den * 2 ^ (floorLog2 num den + 1) := by
  obtain ⟨hn1, hn2, hn3⟩ := bitLength_spec num hnum
  obtain ⟨hd1, hd2, hd3⟩ := bitLength_spec den hden
  have hn1q : (2 : ℚ) ^ ((bitLength num : Int) - 1) ≤ num := by
    have : ((2 ^ (bitLength num - 1) : Nat) : ℚ) ≤ (num : ℚ) := by exact_mod_cast hn1
    rw [Nat.cast_pow, ← zpow_natCast] at this
    convert this using 2
    omega
  have hn2q : (num : ℚ) < (2 : ℚ) ^ (bitLength num : Int) := by
    have : (num : ℚ) < ((2 ^ (bitLength num) : Nat) : ℚ) := by exact_mod_cast hn2
    rw [Nat.cast_pow, ← zpow_natCast] at this
    exact this
  have hd1q : (2 : ℚ) ^ ((bitLength den : Int) - 1) ≤ den := by
    have : ((2 ^ (bitLength den - 1) : Nat) : ℚ) ≤ (den : ℚ) := by exact_mod_cast hd1
    rw [Nat.cast_pow, ← zpow_natCast] at this
    convert this using 2
    omega
  have hd2q : (den : ℚ) < (2 : ℚ) ^ (bitLength den : Int) := by
    have : (den : ℚ) < ((2 ^ (bitLength den) : Nat) : ℚ) := by exact_mod_cast hd2
    rw [Nat.cast_pow, ← zpow_natCast] at this
    exact this
  have hdpos : (0 : ℚ) < den := by exact_mod_cast Nat.pos_of_ne_zero hden
  unfold floorLog2
  simp only []
  generalize hl : ((bitLength num : Int) - (bitLength den : Int)) = l
  -- the test decides whether `den * 2^l ≤ num`
  have htest : (if 0 ≤ l then den * 2 ^ l.toNat ≤ num else den ≤ num * 2 ^ (-l).toNat) ↔
      (den : ℚ) * 2 ^ l ≤ num := by
    split_ifs with h0
    · rw [← zpow_toNat_of_nonneg l h0]
      constructor
      · intro h
        exact_mod_cast h
      · intro h
        exact_mod_cast h
    · have h1 := zpow_toNat_of_neg l h0
      have hp : (0 : ℚ) < 2 ^ (-l).toNat := by positivity
      have heq : (den : ℚ) * 2 ^ l ≤ num ↔ (den : ℚ) ≤ num * 2 ^ (-l).toNat := by
        constructor
        · intro h
          calc (den : ℚ) = (den * 2 ^ l) * 2 ^ (-l).toNat := by
                rw [mul_assoc, mul_comm ((2 : ℚ) ^ l), h1, mul_one]
            _ ≤ num * 2 ^ (-l).toNat := mul_le_mul_of_nonneg_right h hp.le
        · intro h
          have hp2 : (0 : ℚ) < 2 ^ l := zpow_pos (by norm_num) l
          calc (den : ℚ) * 2 ^ l ≤ (num * 2 ^ (-l).toNat) * 2 ^ l :=
                mul_le_mul_of_nonneg_right h hp2.le
            _ = num := by rw [mul_assoc, h1, mul_one]
      rw [heq]
      constructor
      · intro h
        exact_mod_cast h
      · intro h
        exact_mod_cast h
  have h2pos : ∀ z : Int, (0 : ℚ) < 2 ^ z := fun z => zpow_pos (by norm_num) z
  by_cases hq : (den : ℚ) * 2 ^ l ≤ num
  · rw [if_pos (htest.mpr hq)]
    refine ⟨hq, ?_⟩
    calc (num : ℚ) < (2 : ℚ) ^ (bitLength num : Int) := hn2q
      _ = (2 : ℚ) ^ ((bitLength den : Int) - 1) * 2 ^ (l + 1) := by
          rw [← zpow_add₀ (by norm_num)]
          congr 1
          omega
      _ ≤ den * 2 ^ (l + 1) := mul_le_mul_of_nonneg_right hd1q (h2pos _).le
  · rw [if_neg (fun h => hq (htest.mp h))]
    have hlt : (num : ℚ) < den * 2 ^ l := lt_of_not_le hq
    refine ⟨?_, by simpa using hlt⟩
    calc (den : ℚ) * 2 ^ (l - 1) ≤ (2 : ℚ) ^ (bitLength den : Int) * 2 ^ (l - 1) :=
          mul_le_mul_of_nonneg_right hd2q.le (h2pos _).le
      _ = (2 : ℚ) ^ ((bitLength num : Int) - 1) := by
          rw [← zpow_add₀ (by norm_num)]
          congr 1
          omega
      _ ≤ num := hn1q

theorem roundToDouble_canonical (neg : Bool) (num den : Nat) (hden : den ≠ 0) :
    (roundToDouble neg num den).Canonical := by
  unfold roundToDouble
  by_cases hnum : num = 0
  · simp [hnum, Double.Canonical]
  simp only [if_neg hnum]
  obtain ⟨hlo, hhi⟩ := floorLog2_spec num den hnum hden
  generalize floorLog2 num den = lg at hlo hhi
  generalize he : max (lg - 52) (-1074) = e
  have hdpos : 0 < den := Nat.pos_of_ne_zero hden
  have hdq : (0 : ℚ) < den := by exact_mod_cast hdpos
  have hup : scaledQuotient num den e ≤ 2 ^ 53 := by
    apply scaledQuotient_le _ _ _ _ hdpos
    have h1 : (2 : ℚ) ^ (lg + 1) ≤ 2 ^ (e + 53) :=
      zpow_le_zpow_right₀ (by norm_num) (by omega)
    have h2 : (2 : ℚ) ^ (e + 53) = 2 ^ e * 2 ^ (53 : ℕ) := by
      rw [zpow_add₀ (by norm_num)]
      norm_cast
    push_cast
    calc (num : ℚ) ≤ den * 2 ^ (lg + 1) := hhi.le
      _ ≤ den * 2 ^ (e + 53) := mul_le_mul_of_nonneg_left h1 hdq.le
      _ = 2 ^ 53 * den * 2 ^ e := by rw [h2]; ring
  have hdown : e ≠ -1074 → 2 ^ 52 ≤ scaledQuotient num den e := by
    intro hne
    have hee : e = lg - 52 := by omega
    apply scaledQuotient_ge _ _ _ _ hdpos
    have h2 : (2 : ℚ) ^ lg = 2 ^ e * 2 ^ (52 : ℕ) := by
      rw [hee, ← zpow_natCast, ← zpow_add₀ (by norm_num)]
      congr 1
      omega
    push_cast
    calc (2 : ℚ) ^ 52 * den * 2 ^ e = den * 2 ^ lg := by rw [h2]; ring
      _ ≤ num := hlo
  have hege : -1074 ≤ e := by omega
  split_ifs with h53 h971 h971
  · trivial
  · simp only [Double.Canonical]
    refine ⟨by norm_num, by omega, by omega, Or.inl (le_refl _)⟩
  · trivial
  · simp only [Double.Canonical]
    refine ⟨by omega, hege, by omega, ?_⟩
    by_cases h : e = -1074
    · exact Or.inr h
    · exact Or.inl (hdown h)

theorem roundToDouble_of_value (neg : Bool) (m0 : Nat) (e0 : Int)
    (hc : (Double.fin neg m0 e0).Canonical) (hm : m0 ≠ 0) (num den : Nat) (hden : den ≠ 0)
    (hv : (num : ℚ) = m0 * den * 2 ^ e0) :
    roundToDouble neg num den = Double.fin neg m0 e0 := by
  simp only [Double.Canonical] at hc
  obtain ⟨hc1, hc2, hc3, hc4⟩ := hc
  have hdpos : 0 < den := Nat.pos_of_ne_zero hden
  have hdq : (0 : ℚ) < den := by exact_mod_cast hdpos
  have hmq : (0 : ℚ) < m0 := by exact_mod_cast Nat.pos_of_ne_zero hm
  have h2pos : ∀ z : Int, (0 : ℚ) < 2 ^ z := fun z => zpow_pos (by norm_num) z
  have hnum : num ≠ 0 := by
    intro h
    rw [h] at hv
    have : (0 : ℚ) < m0 * den * 2 ^ e0 := by positivity
    simp at hv
    rcases hv with (h | h) | h
    · exact hm h
    · exact hden h
    · exact absurd h (h2pos e0).ne'
  obtain ⟨hlo, hhi⟩ := floorLog2_spec num den hnum hden
  unfold roundToDouble
  simp only [if_neg hnum]
  generalize floorLog2 num den = lg at hlo hhi ⊢
  -- the value lies in one binade only
  have hlo' : (2 : ℚ) ^ lg ≤ m0 * 2 ^ e0 := by
    have : (den : ℚ) * 2 ^ lg ≤ den * (m0 * 2 ^ e0) := by rw [hv] at hlo; linarith
    exact le_of_mul_le_mul_left this hdq
  have hhi' : (m0 : ℚ) * 2 ^ e0 < 2 ^ (lg + 1) := by
    have : (den : ℚ) * (m0 * 2 ^ e0) < den * 2 ^ (lg + 1) := by rw [hv] at hhi; linarith
    exact lt_of_mul_lt_mul_left this hdq.le
  have hm53 : (m0 : ℚ) < 2 ^ (53 : ℤ) := by
    rw [show (2 : ℚ) ^ (53 : ℤ) = ((2 ^ 53 : ℕ) : ℚ) by norm_num]
    exact_mod_cast hc1
  have he : max (lg - 52) (-1074) = e0 := by
    have hupper : lg < e0 + 53 := by
      have : (2 : ℚ) ^ lg < 2 ^ (e0 + 53) := by
        calc (2 : ℚ) ^ lg ≤ m0 * 2 ^ e0 := hlo'
          _ < 2 ^ (53 : ℤ) * 2 ^ e0 := mul_lt_mul_of_pos_right hm53 (h2pos _)
          _ = 2 ^ (e0 + 53) := by rw [← zpow_add₀ (by norm_num)]; congr 1; omega
      exact (zpow_lt_zpow_iff_right₀ (by norm_num)).mp this
    rcases hc4 with h52 | hsub
    · have hm52 : (2 : ℚ) ^ (52 : ℤ) ≤ m0 := by
        rw [show (2 : ℚ) ^ (52 : ℤ) = ((2 ^ 52 : ℕ) : ℚ) by norm_num]
        exact_mod_cast h52
      have hlower : e0 + 52 < lg + 1 := by
        have : (2 : ℚ) ^ (e0 + 52) < 2 ^ (lg + 1) := by
          calc (2 : ℚ) ^ (e0 + 52) = 2 ^ (52 : ℤ) * 2 ^ e0 := by
                rw [← zpow_add₀ (by norm_num)]; congr 1; omega
            _ ≤ m0 * 2 ^ e0 := mul_le_mul_of_nonneg_right hm52 (h2pos _).le
            _ < 2 ^ (lg + 1) := hhi'
        exact (zpow_lt_zpow_iff_right₀ (by norm_num)).mp this
      omega
    · omega
  have hq : scaledQuotient num den e0 = m0 := by
    apply le_antisymm
    · exact scaledQuotient_le _ _ _ _ hdpos hv.le
    · exact scaledQuotient_ge _ _ _ _ hdpos hv.ge
  simp only [he, hq]
  rw [if_neg (by omega), if_neg (by omega)]

/-! ## The decimal exponent -/

theorem ten_zpow_toNat_of_nonneg (e : Int) (h : 0 ≤ e) :
    ((10 : ℚ) ^ e.toNat) = (10 : ℚ) ^ e := by
  rw [← zpow_natCast, Int.toNat_of_nonneg h]

theorem ten_zpow_toNat_of_neg (e : Int) (h : ¬ 0 ≤ e) :
    ((10 : ℚ) ^ (-e).toNat) * (10 : ℚ) ^ e = 1 := by
  rw [← zpow_natCast, Int.toNat_of_nonneg (by omega), ← zpow_add₀ (by norm_num)]
  simp

theorem ltPow10_iff (num den : Nat) (n : Int) :
    ltPow10 num den n = true ↔ (num : ℚ) < den * 10 ^ n := by
  unfold ltPow10
  split_ifs with h0
  · rw [decide_eq_true_iff, ← ten_zpow_toNat_of_nonneg n h0]
    constructor
    · intro h
      exact_mod_cast h
    · intro h
      exact_mod_cast h
  · have h1 := ten_zpow_toNat_of_neg n h0
    have hp : (0 : ℚ) < 10 ^ (-n).toNat := by positivity
    have hp2 : (0 : ℚ) < 10 ^ n := zpow_pos (by norm_num) n
    rw [decide_eq_true_iff]
    have heq : (num : ℚ) < den * 10 ^ n ↔ (num : ℚ) * 10 ^ (-n).toNat < den := by
      constructor
      · intro h
        calc (num : ℚ) * 10 ^ (-n).toNat < (den * 10 ^ n) * 10 ^ (-n).toNat :=
              mul_lt_mul_of_pos_right h hp
          _ = den := by rw [mul_assoc, mul_comm ((10 : ℚ) ^ n), h1, mul_one]
      · intro h
        calc (num : ℚ) = (num * 10 ^ (-n).toNat) * 10 ^ n := by rw [mul_assoc, h1, mul_one]
          _ < den * 10 ^ n := mul_lt_mul_of_pos_right h hp2
    rw [heq]
    constructor
    · intro h
      exact_mod_cast h
    · intro h
      exact_mod_cast h

theorem decimalExponentAux_spec (num den : Nat) : ∀ (fuel : Nat) (n0 : Int),
    (den : ℚ) * 10 ^ (n0 - 1) ≤ num → (num : ℚ) < den * 10 ^ (n0 + fuel) →
    (den : ℚ) * 10 ^ (decimalExponentAux fuel n0 num den - 1) ≤ num ∧
      (num : ℚ) < den * 10 ^ (decimalExponentAux fuel n0 num den) ∧
      n0 ≤ decimalExponentAux fuel n0 num den ∧
      decimalExponentAux fuel n0 num den ≤ n0 + fuel := by
  intro fuel
  induction fuel with
  | zero =>
    intro n0 hlo hhi
    simp only [decimalExponentAux]
    refine ⟨hlo, by simpa using hhi, le_refl _, by simp⟩
  | succ fuel ih =>
    intro n0 hlo hhi
    simp only [decimalExponentAux]
    by_cases hlt : ltPow10 num den n0 = true
    · rw [if_pos hlt]
      exact ⟨hlo, (ltPow10_iff _ _ _).mp hlt, le_refl _, by push_cast; omega⟩
    · rw [if_neg hlt]
      have hge : (den : ℚ) * 10 ^ n0 ≤ num :=
        le_of_not_lt (fun h => hlt ((ltPow10_iff _ _ _).mpr h))
      have := ih (n0 + 1) (by simpa using hge) (by
        have e : n0 + 1 + (fuel : Int) = n0 + ((fuel + 1 : Nat) : Int) := by push_cast; ring
        rw [e]
        exact hhi)
      obtain ⟨h1, h2, h3, h4⟩ := this
      exact ⟨h1, h2, by omega, by push_cast; omega⟩

theorem scaled_cast (m : Nat) (e : Int) (he : -1074 ≤ e) :
    (Double.scaled m e : ℚ) = m * 2 ^ e * 2 ^ (1074 : ℕ) := by
  unfold Double.scaled
  push_cast
  rw [← zpow_natCast (2 : ℚ) (e + 1074).toNat, Int.toNat_of_nonneg (by omega),
    zpow_add₀ (by norm_num)]
  norm_cast
  ring

theorem decimalExponent_spec (m : Nat) (e : Int) (hc : (Double.fin false m e).Canonical)
    (hm : m ≠ 0) :
    (((2 ^ 1074 : Nat) : ℚ) * 10 ^ (decimalExponent (Double.scaled m e) (2 ^ 1074) - 1)
        ≤ (Double.scaled m e : ℚ)) ∧
    ((Double.scaled m e : ℚ) <
        ((2 ^ 1074 : Nat) : ℚ) * 10 ^ (decimalExponent (Double.scaled m e) (2 ^ 1074))) ∧
    -323 ≤ decimalExponent (Double.scaled m e) (2 ^ 1074) ∧
    decimalExponent (Double.scaled m e) (2 ^ 1074) ≤ 317 := by
  simp only [Double.Canonical] at hc
  obtain ⟨hc1, hc2, hc3, _⟩ := hc
  have hs := scaled_cast m e hc2
  have h2pos : ∀ z : Int, (0 : ℚ) < 2 ^ z := fun z => zpow_pos (by norm_num) z
  have hm1 : (1 : ℚ) ≤ m := by exact_mod_cast Nat.pos_of_ne_zero hm
  have hm53 : (m : ℚ) < 2 ^ (53 : ℤ) := by
    rw [show (2 : ℚ) ^ (53 : ℤ) = ((2 ^ 53 : ℕ) : ℚ) by norm_num]
    exact_mod_cast hc1
  have hvlo : (10 : ℚ) ^ ((-323 : ℤ) - 1) ≤ m * 2 ^ e := by
    have h1 : (2 : ℚ) ^ (-1074 : ℤ) ≤ 2 ^ e := zpow_le_zpow_right₀ (by norm_num) hc2
    have h2 : (10 : ℚ) ^ ((-323 : ℤ) - 1) ≤ 2 ^ (-1074 : ℤ) := by
      rw [show ((-323 : ℤ) - 1) = -(324 : ℕ) by norm_num, show (-1074 : ℤ) = -(1074 : ℕ) by norm_num,
        zpow_neg, zpow_neg, zpow_natCast, zpow_natCast]
      apply inv_anti₀ (by positivity)
      norm_num
    calc (10 : ℚ) ^ ((-323 : ℤ) - 1) ≤ 2 ^ (-1074 : ℤ) := h2
      _ ≤ 2 ^ e := h1
      _ = 1 * 2 ^ e := (one_mul _).symm
      _ ≤ m * 2 ^ e := mul_le_mul_of_nonneg_right hm1 (h2pos _).le
  have hvhi : (m : ℚ) * 2 ^ e < 10 ^ ((-323 : ℤ) + (640 : ℕ)) := by
    have h1 : (2 : ℚ) ^ e ≤ 2 ^ (971 : ℤ) := zpow_le_zpow_right₀ (by norm_num) hc3
    calc (m : ℚ) * 2 ^ e < 2 ^ (53 : ℤ) * 2 ^ e := mul_lt_mul_of_pos_right hm53 (h2pos _)
      _ ≤ 2 ^ (53 : ℤ) * 2 ^ (971 : ℤ) := mul_le_mul_of_nonneg_left h1 (h2pos _).le
      _ ≤ 10 ^ ((-323 : ℤ) + (640 : ℕ)) := by
          rw [← zpow_add₀ (by norm_num)]
          norm_num
  generalize hDdef : ((2 ^ 1074 : Nat) : ℚ) = D at hs ⊢
  have hD : (0 : ℚ) < D := by
    rw [← hDdef]
    have : 0 < (2 : Nat) ^ 1074 := pow_pos (by norm_num) _
    exact_mod_cast this
  have hs' : (Double.scaled m e : ℚ) = m * 2 ^ e * D := by
    rw [hs, ← hDdef, Nat.cast_pow, Nat.cast_ofNat]
  have := decimalExponentAux_spec (Double.scaled m e) (2 ^ 1074) 640 (-323)
    (by
      rw [hs', hDdef]
      calc D * 10 ^ ((-323 : ℤ) - 1) ≤ D * (m * 2 ^ e) :=
            mul_le_mul_of_nonneg_left hvlo hD.le
        _ = m * 2 ^ e * D := by ring)
    (by
      rw [hs', hDdef]
      calc (m : ℚ) * 2 ^ e * D < 10 ^ ((-323 : ℤ) + (640 : ℕ)) * D :=
            mul_lt_mul_of_pos_right hvhi hD
        _ = D * 10 ^ ((-323 : ℤ) + (640 : ℕ)) := by ring)
  obtain ⟨h1, h2, h3, h4⟩ := this
  unfold decimalExponent
  rw [hDdef] at h1 h2
  exact ⟨h1, h2, h3, by omega⟩

/-! ## The shortest digits -/

theorem candidate_bounds (c k : Nat) (n : Int) (hk : 1 ≤ k) (h1 : 10 ^ (k - 1) ≤ c)
    (h2 : c ≤ 10 ^ k) :
    10 ^ (k - 1) ≤ (candidate c k n).1 ∧ (candidate c k n).1 < 10 ^ k := by
  have hlt : 10 ^ (k - 1) < 10 ^ k := Nat.pow_lt_pow_right (by norm_num) (by omega)
  unfold candidate
  split_ifs with h
  · exact ⟨le_refl _, hlt⟩
  · exact ⟨h1, lt_of_le_of_ne h2 h⟩

theorem step_bounds (V D : Nat) (hDpos : 0 < D) (n : Int) (k : Nat) (hk : 1 ≤ k)
    (hlo : (D : ℚ) * 10 ^ (n - 1) ≤ V) (hhi : (V : ℚ) < D * 10 ^ n) :
    10 ^ (k - 1) ≤
        (V * (if 0 ≤ n - (k : Int) then 1 else 10 ^ (-(n - (k : Int))).toNat)) /
          (D * (if 0 ≤ n - (k : Int) then 10 ^ (n - (k : Int)).toNat else 1)) ∧
      (V * (if 0 ≤ n - (k : Int) then 1 else 10 ^ (-(n - (k : Int))).toNat)) /
          (D * (if 0 ≤ n - (k : Int) then 10 ^ (n - (k : Int)).toNat else 1)) < 10 ^ k := by
  have hD : (0 : ℚ) < D := by exact_mod_cast hDpos
  have h10 : ∀ z : Int, (0 : ℚ) < 10 ^ z := fun z => zpow_pos (by norm_num) z
  have hk1 : ((10 ^ (k - 1) : Nat) : ℚ) = (10 : ℚ) ^ ((k : Int) - 1) := by
    rw [Nat.cast_pow, ← zpow_natCast]
    congr 1
    omega
  have hk2 : ((10 ^ k : Nat) : ℚ) = (10 : ℚ) ^ (k : Int) := by
    rw [Nat.cast_pow, ← zpow_natCast]
    rfl
  generalize hp : n - (k : Int) = p
  have hn : n = p + k := by omega
  subst hn
  split_ifs with h0
  · have hden : 0 < D * 10 ^ p.toNat := by positivity
    rw [Nat.le_div_iff_mul_le hden, Nat.div_lt_iff_lt_mul hden]
    have hB : (((10 : Nat) ^ p.toNat : Nat) : ℚ) = (10 : ℚ) ^ p := by
      rw [Nat.cast_pow, ← zpow_natCast, Int.toNat_of_nonneg h0]
      rfl
    constructor
    · have : ((10 ^ (k - 1) * (D * 10 ^ p.toNat) : Nat) : ℚ) ≤ ((V * 1 : Nat) : ℚ) := by
        rw [Nat.cast_mul, Nat.cast_mul, Nat.cast_mul, hk1, hB, Nat.cast_one, mul_one]
        have e1 : (10 : ℚ) ^ ((k : Int) - 1) * 10 ^ p = 10 ^ (p + k - 1) := by
          rw [← zpow_add₀ (by norm_num)]
          congr 1
          ring
        calc (10 : ℚ) ^ ((k : Int) - 1) * (D * 10 ^ p)
            = D * (10 ^ ((k : Int) - 1) * 10 ^ p) := by ring
          _ = D * 10 ^ (p + k - 1) := by rw [e1]
          _ ≤ V := hlo
      exact_mod_cast this
    · have : ((V * 1 : Nat) : ℚ) < ((10 ^ k * (D * 10 ^ p.toNat) : Nat) : ℚ) := by
        rw [Nat.cast_mul, Nat.cast_mul, Nat.cast_mul, hk2, hB, Nat.cast_one, mul_one]
        have e1 : (10 : ℚ) ^ (k : Int) * 10 ^ p = 10 ^ (p + k) := by
          rw [← zpow_add₀ (by norm_num)]
          congr 1
          ring
        calc (V : ℚ) < D * 10 ^ (p + k) := hhi
          _ = D * (10 ^ (k : Int) * 10 ^ p) := by rw [e1]
          _ = 10 ^ (k : Int) * (D * 10 ^ p) := by ring
      exact_mod_cast this
  · have hden : 0 < D * 1 := by positivity
    rw [Nat.le_div_iff_mul_le hden, Nat.div_lt_iff_lt_mul hden]
    have hA : (((10 : Nat) ^ (-p).toNat : Nat) : ℚ) = (10 : ℚ) ^ (-p) := by
      rw [Nat.cast_pow, ← zpow_natCast, Int.toNat_of_nonneg (by omega)]
      rfl
    have hAp : (0 : ℚ) < 10 ^ (-p) := h10 _
    constructor
    · have : ((10 ^ (k - 1) * (D * 1) : Nat) : ℚ) ≤ ((V * 10 ^ (-p).toNat : Nat) : ℚ) := by
        rw [Nat.cast_mul, Nat.cast_mul, Nat.cast_mul, hk1, hA, Nat.cast_one, mul_one]
        have e1 : (10 : ℚ) ^ ((k : Int) - 1) = 10 ^ (p + k - 1) * 10 ^ (-p) := by
          rw [← zpow_add₀ (by norm_num)]
          congr 1
          ring
        calc (10 : ℚ) ^ ((k : Int) - 1) * D
            = (D * 10 ^ (p + k - 1)) * 10 ^ (-p) := by rw [e1]; ring
          _ ≤ V * 10 ^ (-p) := mul_le_mul_of_nonneg_right hlo hAp.le
      exact_mod_cast this
    · have : ((V * 10 ^ (-p).toNat : Nat) : ℚ) < ((10 ^ k * (D * 1) : Nat) : ℚ) := by
        rw [Nat.cast_mul, Nat.cast_mul, Nat.cast_mul, hk2, hA, Nat.cast_one, mul_one]
        have e1 : (10 : ℚ) ^ (k : Int) = 10 ^ (p + k) * 10 ^ (-p) := by
          rw [← zpow_add₀ (by norm_num)]
          congr 1
          ring
        calc (V : ℚ) * 10 ^ (-p) < (D * 10 ^ (p + k)) * 10 ^ (-p) :=
              mul_lt_mul_of_pos_right hhi hAp
          _ = 10 ^ (k : Int) * D := by rw [e1]; ring
      exact_mod_cast this

theorem roundsTo_exact (m : Nat) (e : Int) (hc : (Double.fin false m e).Canonical)
    (hm : m ≠ 0) (n : Int) (K : Nat) (hK : (K : Int) = n + 1074) :
    roundsTo m e
      ((Double.scaled m e * (if 0 ≤ n - (K : Int) then 1 else 10 ^ (-(n - (K : Int))).toNat)) /
        (2 ^ 1074 * (if 0 ≤ n - (K : Int) then 10 ^ (n - (K : Int)).toNat else 1))) K n
      = true := by
  have hp : n - (K : Int) = -1074 := by omega
  have hneg : ¬ (0 : Int) ≤ -1074 := by norm_num
  have htn : (-(-1074 : Int)).toNat = 1074 := by rfl
  have hc2 : -1074 ≤ e := by
    simp only [Double.Canonical] at hc
    exact hc.2.1
  rw [hp]
  simp only [if_neg hneg, htn, mul_one]
  have h10 : (10 : Nat) ^ 1074 = 5 ^ 1074 * 2 ^ 1074 := by
    rw [← Nat.mul_pow]
  have h2pos : 0 < (2 : Nat) ^ 1074 := pow_pos (by norm_num) _
  have hlo : Double.scaled m e * 10 ^ 1074 / 2 ^ 1074 = Double.scaled m e * 5 ^ 1074 := by
    rw [h10, ← Nat.mul_assoc, Nat.mul_div_cancel _ h2pos]
  rw [hlo]
  unfold roundsTo
  rw [hp]
  simp only [timesPow10, if_neg hneg, htn, decide_eq_true_eq]
  apply roundToDouble_of_value false m e hc hm
  · exact (pow_pos (by norm_num) _).ne'
  · rw [Nat.cast_mul, scaled_cast m e hc2, h10]
    simp only [Nat.cast_pow, Nat.cast_ofNat, Nat.cast_mul]
    generalize (2 : ℚ) ^ (1074 : ℕ) = A
    generalize (5 : ℚ) ^ (1074 : ℕ) = B
    ring

theorem shortestAux_good (m : Nat) (e : Int) (hc : (Double.fin false m e).Canonical)
    (hm : m ≠ 0) (n : Int)
    (hlo : ((2 ^ 1074 : Nat) : ℚ) * 10 ^ (n - 1) ≤ (Double.scaled m e : ℚ))
    (hhi : (Double.scaled m e : ℚ) < ((2 ^ 1074 : Nat) : ℚ) * 10 ^ n) :
    ∀ (fuel k : Nat), 1 ≤ k → 1 ≤ fuel → (k : Int) + fuel = n + 1074 + 1 →
      roundsTo m e (shortestAux m e n fuel k).1 (shortestAux m e n fuel k).2.1
          (shortestAux m e n fuel k).2.2 = true ∧
        10 ^ ((shortestAux m e n fuel k).2.1 - 1) ≤ (shortestAux m e n fuel k).1 ∧
        (shortestAux m e n fuel k).1 < 10 ^ (shortestAux m e n fuel k).2.1 ∧
        1 ≤ (shortestAux m e n fuel k).2.1 := by
  intro fuel
  induction fuel with
  | zero => intro k _ h; omega
  | succ fuel ih =>
    intro k hk _ hsum
    have hb := step_bounds (Double.scaled m e) (2 ^ 1074) (pow_pos (by norm_num) _) n k hk hlo hhi
    have hex : fuel = 0 → roundsTo m e
        ((Double.scaled m e * (if 0 ≤ n - (k : Int) then 1 else 10 ^ (-(n - (k : Int))).toNat)) /
          (2 ^ 1074 * (if 0 ≤ n - (k : Int) then 10 ^ (n - (k : Int)).toNat else 1))) k n
        = true := by
      intro hf
      apply roundsTo_exact m e hc hm n k
      subst hf
      push_cast at hsum
      omega
    unfold shortestAux
    simp only []
    generalize (Double.scaled m e * (if 0 ≤ n - (k : Int) then 1
        else 10 ^ (-(n - (k : Int))).toNat)) /
      (2 ^ 1074 * (if 0 ≤ n - (k : Int) then 10 ^ (n - (k : Int)).toNat else 1)) = lo
      at hb hex ⊢
    generalize (Double.scaled m e * (if 0 ≤ n - (k : Int) then 1
        else 10 ^ (-(n - (k : Int))).toNat)) %
      (2 ^ 1074 * (if 0 ≤ n - (k : Int) then 10 ^ (n - (k : Int)).toNat else 1)) = r
    generalize (2 ^ 1074 * (if 0 ≤ n - (k : Int) then 10 ^ (n - (k : Int)).toNat else 1)) = den
    obtain ⟨hb1, hb2⟩ := hb
    have hcand := candidate_bounds (lo + 1) k n hk (by omega) (by omega)
    generalize candidate (lo + 1) k n = hi at hcand ⊢
    obtain ⟨hc1, hc2⟩ := hcand
    by_cases hokLo : roundsTo m e lo k n = true
    · by_cases hokHi : roundsTo m e hi.1 k hi.2 = true
      · simp only [hokLo, hokHi, Bool.and_self, if_true]
        split_ifs
        · exact ⟨hokLo, hb1, hb2, hk⟩
        · exact ⟨hokHi, hc1, hc2, hk⟩
        · exact ⟨hokLo, hb1, hb2, hk⟩
        · exact ⟨hokHi, hc1, hc2, hk⟩
      · simp only [hokLo, hokHi, Bool.and_false, if_true, if_false, Bool.false_eq_true]
        exact ⟨trivial, hb1, hb2, hk⟩
    · have hf : 1 ≤ fuel := by
        by_contra h
        exact hokLo (hex (by omega))
      by_cases hokHi : roundsTo m e hi.1 k hi.2 = true
      · simp only [hokLo, hokHi, Bool.false_and, if_true, if_false, Bool.false_eq_true]
        exact ⟨trivial, hc1, hc2, hk⟩
      · simp only [hokLo, hokHi, Bool.false_and, if_false, Bool.false_eq_true]
        exact ih (k + 1) (by omega) hf (by push_cast at hsum ⊢; omega)

theorem shortestDigits_good (m : Nat) (e : Int) (hc : (Double.fin false m e).Canonical)
    (hm : m ≠ 0) :
    roundsTo m e (shortestDigits m e).1 (shortestDigits m e).2.1 (shortestDigits m e).2.2
        = true ∧
      10 ^ ((shortestDigits m e).2.1 - 1) ≤ (shortestDigits m e).1 ∧
      (shortestDigits m e).1 < 10 ^ (shortestDigits m e).2.1 ∧
      1 ≤ (shortestDigits m e).2.1 := by
  obtain ⟨h1, h2, h3, h4⟩ := decimalExponent_spec m e hc hm
  unfold shortestDigits
  simp only []
  generalize decimalExponent (Double.scaled m e) (2 ^ 1074) = n at h1 h2 h3 h4 ⊢
  exact shortestAux_good m e hc hm n h1 h2 (n + 1074).toNat 1 (le_refl _) (by omega) (by omega)

/-! ## Decimal digits of a natural number -/

theorem digitChar_spec (d : Nat) (hd : d < 10) :
    (Nat.digitChar d).isDigit = true ∧ (Nat.digitChar d).toNat - 48 = d ∧
      (d ≠ 0 → Nat.digitChar d ≠ '0') := by
  interval_cases d <;> decide

theorem digitsValue_append (a b : List Char) :
    digitsValue (a ++ b) = digitsValue a * 10 ^ b.length + digitsValue b := by
  unfold digitsValue
  rw [List.foldl_append]
  generalize List.foldl (fun acc c => 10 * acc + (c.toNat - 48)) 0 a = x
  induction b generalizing x with
  | nil => simp
  | cons c cs ih =>
    simp only [List.foldl_cons, List.length_cons]
    rw [ih (10 * x + (c.toNat - 48)), ih (10 * 0 + (c.toNat - 48))]
    ring

theorem digitsValue_singleton (c : Char) : digitsValue [c] = c.toNat - 48 := by
  simp [digitsValue]

theorem digitsValue_replicate_zero (j : Nat) : digitsValue (List.replicate j '0') = 0 := by
  induction j with
  | zero => rfl
  | succ j ih =>
    rw [List.replicate_succ, show ('0' :: List.replicate j '0') = ['0'] ++ List.replicate j '0' from rfl,
      digitsValue_append, ih]
    simp [digitsValue]

theorem toDigitsCore_spec : ∀ (fuel n : Nat) (ds : List Char), n < fuel →
    ∃ body, Nat.toDigitsCore 10 fuel n ds = body ++ ds ∧ body ≠ [] ∧
      (∀ c ∈ body, c.isDigit = true) ∧ digitsValue body = n ∧
      (n ≠ 0 → body.head? ≠ some '0') ∧ (n ≠ 0 → 10 ^ (body.length - 1) ≤ n) ∧
      n < 10 ^ body.length := by
  intro fuel
  induction fuel with
  | zero => intro n ds h; omega
  | succ fuel ih =>
    intro n ds hlt
    obtain ⟨hd1, hd2, hd3⟩ := digitChar_spec (n % 10) (Nat.mod_lt _ (by norm_num))
    unfold Nat.toDigitsCore
    simp only []
    by_cases h0 : n / 10 = 0
    · rw [if_pos h0]
      have hn : n % 10 = n := by omega
      refine ⟨[Nat.digitChar (n % 10)], rfl, by simp, ?_, ?_, ?_, ?_, ?_⟩
      · intro c hc
        simp only [List.mem_singleton] at hc
        rw [hc]
        exact hd1
      · rw [digitsValue_singleton, hd2, hn]
      · intro hne
        simp only [List.head?_cons, ne_eq, Option.some.injEq]
        exact hd3 (by omega)
      · intro hne
        simp
        omega
      · simp
        omega
    · rw [if_neg h0]
      obtain ⟨body, hb1, hb2, hb3, hb4, hb5, hb6, hb7⟩ :=
        ih (n / 10) (Nat.digitChar (n % 10) :: ds) (by omega)
      refine ⟨body ++ [Nat.digitChar (n % 10)], ?_, by simp, ?_, ?_, ?_, ?_, ?_⟩
      · rw [hb1]
        simp
      · intro c hc
        rcases List.mem_append.mp hc with h | h
        · exact hb3 c h
        · simp only [List.mem_singleton] at h
          rw [h]
          exact hd1
      · rw [digitsValue_append, hb4, digitsValue_singleton, hd2]
        simp
        omega
      · intro _
        cases body with
        | nil => exact absurd rfl hb2
        | cons b bs =>
          have := hb5 h0
          simpa using this
      · intro _
        have := hb6 h0
        have hlen : (body ++ [Nat.digitChar (n % 10)]).length - 1 = (body.length - 1) + 1 := by
          have : body.length ≠ 0 := fun h => hb2 (List.length_eq_zero.mp h)
          simp
          omega
        rw [hlen, pow_succ]
        omega
      · have hlen : (body ++ [Nat.digitChar (n % 10)]).length = body.length + 1 := by simp
        rw [hlen, pow_succ]
        omega

theorem toDigits_spec (n : Nat) :
    Nat.toDigits 10 n ≠ [] ∧ (∀ c ∈ Nat.toDigits 10 n, c.isDigit = true) ∧
      digitsValue (Nat.toDigits 10 n) = n ∧
      (n ≠ 0 → (Nat.toDigits 10 n).head? ≠ some '0') ∧
      (n ≠ 0 → 10 ^ ((Nat.toDigits 10 n).length - 1) ≤ n) ∧
      n < 10 ^ (Nat.toDigits 10 n).length := by
  obtain ⟨body, hb1, hb⟩ := toDigitsCore_spec (n + 1) n [] (by omega)
  unfold Nat.toDigits
  rw [hb1, List.append_nil]
  exact hb

theorem toDigits_length (s k : Nat) (hk : 1 ≤ k) (h1 : 10 ^ (k - 1) ≤ s) (h2 : s < 10 ^ k) :
    (Nat.toDigits 10 s).length = k := by
  obtain ⟨hne, _, _, _, h5, h6⟩ := toDigits_spec s
  have hs : s ≠ 0 := by
    have : 0 < 10 ^ (k - 1) := by positivity
    omega
  have h5 := h5 hs
  have hL : 1 ≤ (Nat.toDigits 10 s).length := by
    rcases Nat.eq_zero_or_pos (Nat.toDigits 10 s).length with h | h
    · exact absurd (List.length_eq_zero.mp h) hne
    · exact h
  generalize (Nat.toDigits 10 s).length = L at h5 h6 hL
  have a1 : k - 1 < L := (Nat.pow_lt_pow_iff_right (by norm_num : 1 < 10)).mp (lt_of_le_of_lt h1 h6)
  have a2 : L - 1 < k := (Nat.pow_lt_pow_iff_right (by norm_num : 1 < 10)).mp (lt_of_le_of_lt h5 h2)
  omega

/-! ## Lexing the text of a number -/

theorem takeWhile_isDigit_all (a : List Char) (ha : ∀ ch ∈ a, ch.isDigit = true) :
    a.takeWhile Char.isDigit = a ∧ a.dropWhile Char.isDigit = [] := by
  have := takeWhile_isDigit_append a [] ha (by simp)
  simpa using this

theorem lexExponent_signed (sgn : Char) (ed : List Char) (ex : Int) (hne : ed ≠ [])
    (hed : ∀ ch ∈ ed, ch.isDigit = true)
    (hs : (sgn = '+' ∧ ex = (digitsValue ed : Int)) ∨ (sgn = '-' ∧ ex = -(digitsValue ed : Int))) :
    lexExponent ('e' :: sgn :: ed) = some (ex, []) := by
  obtain ⟨ht, hd⟩ := takeWhile_isDigit_all ed hed
  have hemp : (ed.isEmpty) = false := by
    cases ed with
    | nil => exact absurd rfl hne
    | cons _ _ => rfl
  rcases hs with ⟨h1, h2⟩ | ⟨h1, h2⟩
  · subst h1
    simp [lexExponent, ht, hd, hemp, h2]
  · subst h1
    simp [lexExponent, ht, hd, hemp, h2]

theorem lexNumber_shape (ip fp : List Char) (ex : Int) (fracText expText : List Char)
    (hip : ∀ ch ∈ ip, ch.isDigit = true)
    (hlead : ¬ (ip.head? = some '0' ∧ 2 ≤ ip.length))
    (hfrac : (fp = [] ∧ fracText = []) ∨
      (fp ≠ [] ∧ (∀ ch ∈ fp, ch.isDigit = true) ∧ fracText = '.' :: fp))
    (hexp : (ex = 0 ∧ expText = []) ∨
      (∃ sgn ed, ed ≠ [] ∧ (∀ ch ∈ ed, ch.isDigit = true) ∧ expText = 'e' :: sgn :: ed ∧
        ((sgn = '+' ∧ ex = (digitsValue ed : Int)) ∨
          (sgn = '-' ∧ ex = -(digitsValue ed : Int))))) :
    lexNumber (ip ++ (fracText ++ expText)) = some (literalValue ip fp ex, []) := by
  have hexpLex : lexExponent expText = some (ex, []) := by
    rcases hexp with ⟨h1, h2⟩ | ⟨sgn, ed, h1, h2, h3, h4⟩
    · subst h1 h2
      rfl
    · subst h3
      exact lexExponent_signed sgn ed ex h1 h2 h4
  have hexpHead : ∀ ch, expText.head? = some ch → ch.isDigit = false ∧ ch ≠ '.' := by
    intro ch h
    rcases hexp with ⟨_, h2⟩ | ⟨sgn, ed, _, _, h3, _⟩
    · subst h2
      simp at h
    · subst h3
      simp only [List.head?_cons, Option.some.injEq] at h
      subst h
      exact ⟨by decide, by decide⟩
  have hfracLex : lexFraction (fracText ++ expText) = some (fp, expText) := by
    rcases hfrac with ⟨h1, h2⟩ | ⟨h1, h2, h3⟩
    · subst h1 h2
      rw [List.nil_append]
      unfold lexFraction
      split
      · exact absurd rfl (hexpHead '.' rfl).2
      · rfl
    · subst h3
      obtain ⟨ht, hd⟩ := takeWhile_isDigit_append fp expText h2 (fun ch h => (hexpHead ch h).1)
      have hemp : (fp.isEmpty) = false := by
        cases fp with
        | nil => exact absurd rfl h1
        | cons _ _ => rfl
      simp [lexFraction, ht, hd, hemp]
  have hrestHead : ∀ ch, (fracText ++ expText).head? = some ch → ch.isDigit = false := by
    intro ch h
    rcases hfrac with ⟨_, h2⟩ | ⟨_, _, h3⟩
    · subst h2
      exact (hexpHead ch (by simpa using h)).1
    · subst h3
      simp only [List.cons_append, List.head?_cons, Option.some.injEq] at h
      subst h
      decide
  obtain ⟨ht, hd⟩ := takeWhile_isDigit_append ip (fracText ++ expText) hip hrestHead
  unfold lexNumber
  simp only [ht, hd, if_neg hlead, hfracLex, hexpLex, endsNumber, if_true]

theorem literalValue_eq (ip fp : List Char) (ex : Int) (s : Nat) (p : Int)
    (hs : digitsValue (ip ++ fp) = s) (hp : ex - (fp.length : Int) = p) :
    literalValue ip fp ex = roundToDouble false (timesPow10 s p).1 (timesPow10 s p).2 := by
  unfold literalValue
  simp only [hs, hp]

theorem replicate_zero_isDigit (j : Nat) : ∀ ch ∈ List.replicate j '0', ch.isDigit = true := by
  intro ch h
  rw [List.eq_of_mem_replicate h]
  decide

theorem lexNumber_formatDigits (s k : Nat) (n : Int) (hk : 1 ≤ k) (h1 : 10 ^ (k - 1) ≤ s)
    (h2 : s < 10 ^ k) :
    lexNumber (formatDigits s k n) =
      some (roundToDouble false (timesPow10 s (n - (k : Int))).1
        (timesPow10 s (n - (k : Int))).2, []) := by
  obtain ⟨hne, hdig, hval, hhead, _, _⟩ := toDigits_spec s
  have hlen := toDigits_length s k hk h1 h2
  have hs0 : s ≠ 0 := by
    have : 0 < 10 ^ (k - 1) := by positivity
    omega
  have hhead := hhead hs0
  unfold formatDigits
  simp only []
  generalize Nat.toDigits 10 s = ds at hne hdig hval hhead hlen ⊢
  by_cases hA : (k : Int) ≤ n ∧ n ≤ 21
  · -- digits followed by zeros
    rw [if_pos hA]
    have hshape := lexNumber_shape (ds ++ List.replicate (n.toNat - k) '0') [] 0 [] []
      (by
        intro ch h
        rcases List.mem_append.mp h with h | h
        · exact hdig ch h
        · exact replicate_zero_isDigit _ ch h)
      (by
        intro h
        apply hhead
        cases ds with
        | nil => exact absurd rfl hne
        | cons d ds' => simpa using h.1)
      (Or.inl ⟨rfl, rfl⟩) (Or.inl ⟨rfl, rfl⟩)
    simp only [List.append_nil] at hshape
    rw [hshape]
    congr 2
    have hp : 0 ≤ n - (k : Int) := by omega
    have hj : n.toNat - k = (n - (k : Int)).toNat := by omega
    have e0 : timesPow10 (s * 10 ^ (n.toNat - k)) 0 = timesPow10 s (n - (k : Int)) := by
      unfold timesPow10
      rw [if_pos (le_refl 0), if_pos hp, hj]
      simp only [Int.toNat_zero, pow_zero, mul_one]
    unfold literalValue
    rw [List.append_nil, digitsValue_append, hval, digitsValue_replicate_zero,
      List.length_replicate, Nat.add_zero]
    simp only [List.length_nil, Nat.cast_zero, sub_zero]
    rw [e0]
  · rw [if_neg hA]
    by_cases hB : 0 < n ∧ n ≤ 21
    · -- a decimal point inside the digits
      rw [if_pos hB]
      have hnk : n.toNat < k := by omega
      have hshape := lexNumber_shape (ds.take n.toNat) (ds.drop n.toNat) 0
        ('.' :: ds.drop n.toNat) []
        (fun ch h => hdig ch (List.mem_of_mem_take h))
        (by
          intro h
          apply hhead
          cases ds with
          | nil => exact absurd rfl hne
          | cons d ds' =>
            have h1 := h.1
            have hn0 : n.toNat ≠ 0 := by omega
            obtain ⟨j, hj⟩ := Nat.exists_eq_succ_of_ne_zero hn0
            rw [hj] at h1
            simpa using h1)
        (Or.inr ⟨by
          intro h
          have := congrArg List.length h
          simp at this
          omega, fun ch h => hdig ch (List.mem_of_mem_drop h), rfl⟩)
        (Or.inl ⟨rfl, rfl⟩)
      simp only [List.append_nil] at hshape
      rw [hshape]
      congr 2
      apply literalValue_eq
      · rw [List.take_append_drop, hval]
      · simp
        omega
    · rw [if_neg hB]
      by_cases hC : -6 < n ∧ n ≤ 0
      · -- zero, point, zeros, digits
        rw [if_pos hC]
        have hshape := lexNumber_shape ['0'] (List.replicate (-n).toNat '0' ++ ds) 0
          ('.' :: (List.replicate (-n).toNat '0' ++ ds)) []
          (by decide) (by decide)
          (Or.inr ⟨by
            intro h
            have := congrArg List.length h
            simp at this
            exact hne this.2, by
            intro ch h
            rcases List.mem_append.mp h with h | h
            · exact replicate_zero_isDigit _ ch h
            · exact hdig ch h, rfl⟩)
          (Or.inl ⟨rfl, rfl⟩)
        simp only [List.append_nil, List.singleton_append] at hshape
        rw [hshape]
        congr 2
        apply literalValue_eq
        · rw [List.singleton_append,
            show ('0' :: (List.replicate (-n).toNat '0' ++ ds)) =
              List.replicate ((-n).toNat + 1) '0' ++ ds from rfl,
            digitsValue_append, digitsValue_replicate_zero, hval]
          simp
        · simp
          omega
      · -- exponential form
        rw [if_neg hC]
        obtain ⟨hxne, hxdig, hxval, _, _, _⟩ := toDigits_spec (n - 1).natAbs
        generalize Nat.toDigits 10 (n - 1).natAbs = xs at hxne hxdig hxval ⊢
        have hexp : ∃ sgn ed, ed ≠ [] ∧ (∀ ch ∈ ed, ch.isDigit = true) ∧
            ('e' :: (if 0 ≤ n - 1 then '+' else '-') :: xs) = 'e' :: sgn :: ed ∧
            ((sgn = '+' ∧ n - 1 = (digitsValue ed : Int)) ∨
              (sgn = '-' ∧ n - 1 = -(digitsValue ed : Int))) := by
          refine ⟨_, xs, hxne, hxdig, rfl, ?_⟩
          by_cases hx : 0 ≤ n - 1
          · rw [if_pos hx]
            exact Or.inl ⟨rfl, by rw [hxval]; omega⟩
          · rw [if_neg hx]
            exact Or.inr ⟨rfl, by rw [hxval]; omega⟩
        by_cases hk1 : k = 1
        · rw [if_pos hk1]
          have hshape := lexNumber_shape ds [] (n - 1) []
            ('e' :: (if 0 ≤ n - 1 then '+' else '-') :: xs) hdig
            (by
              intro h
              omega)
            (Or.inl ⟨rfl, rfl⟩) (Or.inr hexp)
          simp only [List.nil_append] at hshape
          rw [hshape]
          congr 2
          apply literalValue_eq
          · rw [List.append_nil, hval]
          · simp
            omega
        · rw [if_neg hk1]
          have hshape := lexNumber_shape (ds.take 1) (ds.drop 1) (n - 1)
            ('.' :: ds.drop 1) ('e' :: (if 0 ≤ n - 1 then '+' else '-') :: xs)
            (fun ch h => hdig ch (List.mem_of_mem_take h))
            (by
              intro h
              have := h.2
              rw [List.length_take] at this
              omega)
            (Or.inr ⟨by
              intro h
              have := congrArg List.length h
              simp at this
              omega, fun ch h => hdig ch (List.mem_of_mem_drop h), rfl⟩)
            (Or.inr hexp)
          simp only [List.cons_append] at hshape
          rw [hshape]
          congr 2
          apply literalValue_eq
          · rw [List.take_append_drop, hval]
          · simp
            omega

/-! ## Values built by the evaluator are well formed -/

theorem scaled_pos (m : Nat) (e : Int) (hm : m ≠ 0) : Double.scaled m e ≠ 0 := by
  unfold Double.scaled
  exact Nat.mul_ne_zero hm (pow_pos (by norm_num) _).ne'

theorem canonical_zero (s : Bool) : (Double.fin s 0 (-1074)).Canonical := by
  simp [Double.Canonical]

theorem neg_canonical (x : Double) (hx : x.Canonical) : x.neg.Canonical := by
  cases x with
  | nan => trivial
  | inf s => trivial
  | fin s m e => exact hx

theorem add_canonical (x y : Double) : (x.add y).Canonical := by
  have hD : (2 : Nat) ^ 1074 ≠ 0 := (pow_pos (by norm_num) _).ne'
  cases x with
  | nan => cases y <;> trivial
  | inf s =>
    cases y with
    | nan => trivial
    | inf t =>
      simp only [Double.add]
      split_ifs <;> trivial
    | fin t n f => trivial
  | fin s m e =>
    cases y with
    | nan => trivial
    | inf t => trivial
    | fin t n f =>
      simp only [Double.add]
      split_ifs
      · exact roundToDouble_canonical _ _ _ hD
      · exact canonical_zero false
      · exact roundToDouble_canonical _ _ _ hD
      · exact roundToDouble_canonical _ _ _ hD

theorem sub_canonical (x y : Double) : (x.sub y).Canonical := add_canonical _ _

theorem mul_canonical (x y : Double) : (x.mul y).Canonical := by
  have hD : (2 : Nat) ^ 2148 ≠ 0 := (pow_pos (by norm_num) _).ne'
  cases x with
  | nan => cases y <;> trivial
  | inf s =>
    cases y with
    | nan => trivial
    | inf t => trivial
    | fin t n f =>
      simp only [Double.mul]
      split_ifs <;> trivial
  | fin s m e =>
    cases y with
    | nan => trivial
    | inf t =>
      simp only [Double.mul]
      split_ifs <;> trivial
    | fin t n f =>
      simp only [Double.mul]
      exact roundToDouble_canonical _ _ _ hD

theorem div_canonical (x y : Double) : (x.div y).Canonical := by
  cases x with
  | nan => cases y <;> trivial
  | inf s =>
    cases y with
    | nan => trivial
    | inf t => trivial
    | fin t n f => trivial
  | fin s m e =>
    cases y with
    | nan => trivial
    | inf t => exact canonical_zero _
    | fin t n f =>
      simp only [Double.div]
      split_ifs with h1 h2
      · trivial
      · trivial
      · exact roundToDouble_canonical _ _ _ (scaled_pos n f h1)

theorem toNumber_canonical (v : JSVal) (hv : v.WellFormed) (d : Double)
    (h : v.toNumber = Res.ok d) : d.Canonical := by
  cases v with
  | undefined =>
    simp only [JSVal.toNumber, Res.ok.injEq] at h
    subst h
    trivial
  | number x =>
    simp only [JSVal.toNumber, Res.ok.injEq] at h
    subst h
    exact hv
  | string s =>
    simp only [JSVal.toNumber] at h
    split_ifs at h
    simp only [Res.ok.injEq] at h
    subst h
    trivial
  | regexp b =>
    simp only [JSVal.toNumber, Res.ok.injEq] at h
    subst h
    trivial

theorem bind_eq_ok {α β : Type} (r : Res α) (f : α → Res β) (b : β)
    (h : r.bind f = Res.ok b) : ∃ a, r = Res.ok a ∧ f a = Res.ok b := by
  cases r with
  | ok a => exact ⟨a, rfl, h⟩
  | throw => simp [Res.bind] at h
  | unknown => simp [Res.bind] at h

theorem applyBinOp_wf (op : BinOp) (a b x : JSVal) (h : applyBinOp op a b = Res.ok x) :
    x.WellFormed := by
  cases op with
  | plus =>
    simp only [applyBinOp] at h
    split_ifs at h
    · simp only [Res.ok.injEq] at h
      subst h
      trivial
    · obtain ⟨u, _, h⟩ := bind_eq_ok _ _ _ h
      obtain ⟨w, _, h⟩ := bind_eq_ok _ _ _ h
      simp only [Res.ok.injEq] at h
      subst h
      exact add_canonical _ _
  | minus =>
    simp only [applyBinOp] at h
    obtain ⟨u, _, h⟩ := bind_eq_ok _ _ _ h
    obtain ⟨w, _, h⟩ := bind_eq_ok _ _ _ h
    simp only [Res.ok.injEq] at h
    subst h
    exact sub_canonical _ _
  | star =>
    simp only [applyBinOp] at h
    obtain ⟨u, _, h⟩ := bind_eq_ok _ _ _ h
    obtain ⟨w, _, h⟩ := bind_eq_ok _ _ _ h
    simp only [Res.ok.injEq] at h
    subst h
    exact mul_canonical _ _
  | slash =>
    simp only [applyBinOp] at h
    obtain ⟨u, _, h⟩ := bind_eq_ok _ _ _ h
    obtain ⟨w, _, h⟩ := bind_eq_ok _ _ _ h
    simp only [Res.ok.injEq] at h
    subst h
    exact div_canonical _ _

/-- A unary expression over well-formed operands has a well-formed value. -/
theorem parseUnary_wf : ∀ (ts : List Token) (v : JSVal) (r : List Token),
    (∀ w, Token.lit w ∈ ts → w.WellFormed) → parseUnary ts = Res.ok (v, r) →
    v.WellFormed ∧ (∀ w, Token.lit w ∈ r → w.WellFormed) := by
  intro ts
  induction ts with
  | nil =>
    intro v r _ h
    simp [parseUnary] at h
  | cons t ts ih =>
    intro v r hts h
    have htail : ∀ w, Token.lit w ∈ ts → w.WellFormed :=
      fun w hw => hts w (List.mem_cons_of_mem _ hw)
    cases t with
    | lit w =>
      simp only [parseUnary, Res.ok.injEq, Prod.mk.injEq] at h
      obtain ⟨h1, h2⟩ := h
      subst h1 h2
      exact ⟨hts w (List.mem_cons_self _ _), htail⟩
    | op o =>
      cases o with
      | plus =>
        simp only [parseUnary] at h
        obtain ⟨vr, h1, h⟩ := bind_eq_ok _ _ _ h
        obtain ⟨x, h2, h⟩ := bind_eq_ok _ _ _ h
        simp only [Res.ok.injEq, Prod.mk.injEq] at h
        obtain ⟨h3, h4⟩ := h
        subst h3 h4
        obtain ⟨hw, hr⟩ := ih vr.1 vr.2 htail h1
        exact ⟨toNumber_canonical _ hw _ h2, hr⟩
      | minus =>
        simp only [parseUnary] at h
        obtain ⟨vr, h1, h⟩ := bind_eq_ok _ _ _ h
        obtain ⟨x, h2, h⟩ := bind_eq_ok _ _ _ h
        simp only [Res.ok.injEq, Prod.mk.injEq] at h
        obtain ⟨h3, h4⟩ := h
        subst h3 h4
        obtain ⟨hw, hr⟩ := ih vr.1 vr.2 htail h1
        exact ⟨neg_canonical _ (toNumber_canonical _ hw _ h2), hr⟩
      | star => simp [parseUnary] at h
      | slash => simp [parseUnary] at h

theorem parseMulRest_wf : ∀ (fuel : Nat) (lhs : JSVal) (ts : List Token) (v : JSVal)
    (r : List Token), lhs.WellFormed → (∀ w, Token.lit w ∈ ts → w.WellFormed) →
    parseMulRest fuel lhs ts = Res.ok (v, r) →
    v.WellFormed ∧ (∀ w, Token.lit w ∈ r → w.WellFormed) := by
  intro fuel
  induction fuel with
  | zero =>
    intro lhs ts v r _ _ h
    simp [parseMulRest] at h
  | succ fuel ih =>
    intro lhs ts v r hl hts h
    unfold parseMulRest at h
    split at h
    · rename_i rest
      obtain ⟨vr, h1, h⟩ := bind_eq_ok _ _ _ h
      obtain ⟨x, h2, h⟩ := bind_eq_ok _ _ _ h
      obtain ⟨_, hr⟩ := parseUnary_wf rest vr.1 vr.2
        (fun w hw => hts w (List.mem_cons_of_mem _ hw)) h1
      exact ih x vr.2 v r (applyBinOp_wf _ _ _ _ h2) hr h
    · rename_i rest
      obtain ⟨vr, h1, h⟩ := bind_eq_ok _ _ _ h
      obtain ⟨x, h2, h⟩ := bind_eq_ok _ _ _ h
      obtain ⟨_, hr⟩ := parseUnary_wf rest vr.1 vr.2
        (fun w hw => hts w (List.mem_cons_of_mem _ hw)) h1
      exact ih x vr.2 v r (applyBinOp_wf _ _ _ _ h2) hr h
    · simp only [Res.ok.injEq, Prod.mk.injEq] at h
      obtain ⟨h1, h2⟩ := h
      subst h1 h2
      exact ⟨hl, hts⟩

theorem parseAddRest_wf : ∀ (fuel : Nat) (lhs : JSVal) (ts : List Token) (v : JSVal),
    lhs.WellFormed → (∀ w, Token.lit w ∈ ts → w.WellFormed) →
    parseAddRest fuel lhs ts = Res.ok v → v.WellFormed := by
  intro fuel
  induction fuel with
  | zero =>
    intro lhs ts v _ _ h
    simp [parseAddRest] at h
  | succ fuel ih =>
    intro lhs ts v hl hts h
    unfold parseAddRest at h
    split at h
    · simp only [Res.ok.injEq] at h
      subst h
      exact hl
    · rename_i rest
      obtain ⟨vr, h1, h⟩ := bind_eq_ok _ _ _ h
      obtain ⟨tr, h2, h⟩ := bind_eq_ok _ _ _ h
      obtain ⟨x, h3, h⟩ := bind_eq_ok _ _ _ h
      obtain ⟨hv, hr⟩ := parseUnary_wf rest vr.1 vr.2
        (fun w hw => hts w (List.mem_cons_of_mem _ hw)) h1
      obtain ⟨_, hr2⟩ := parseMulRest_wf fuel vr.1 vr.2 tr.1 tr.2 hv hr h2
      exact ih x tr.2 v (applyBinOp_wf _ _ _ _ h3) hr2 h
    · rename_i rest
      obtain ⟨vr, h1, h⟩ := bind_eq_ok _ _ _ h
      obtain ⟨tr, h2, h⟩ := bind_eq_ok _ _ _ h
      obtain ⟨x, h3, h⟩ := bind_eq_ok _ _ _ h
      obtain ⟨hv, hr⟩ := parseUnary_wf rest vr.1 vr.2
        (fun w hw => hts w (List.mem_cons_of_mem _ hw)) h1
      obtain ⟨_, hr2⟩ := parseMulRest_wf fuel vr.1 vr.2 tr.1 tr.2 hv hr h2
      exact ih x tr.2 v (applyBinOp_wf _ _ _ _ h3) hr2 h
    · simp at h

theorem evalTokens_wf (ts : List Token) (v : JSVal)
    (hts : ∀ w, Token.lit w ∈ ts → w.WellFormed) (h : evalTokens ts = Res.ok v) :
    v.WellFormed := by
  unfold evalTokens at h
  split at h
  · simp only [Res.ok.injEq] at h
    subst h
    trivial
  · obtain ⟨vr, h1, h⟩ := bind_eq_ok _ _ _ h
    obtain ⟨tr, h2, h⟩ := bind_eq_ok _ _ _ h
    obtain ⟨hv, hr⟩ := parseUnary_wf ts vr.1 vr.2 hts h1
    obtain ⟨hv2, hr2⟩ := parseMulRest_wf _ vr.1 vr.2 tr.1 tr.2 hv hr h2
    exact parseAddRest_wf _ tr.1 tr.2 v hv2 hr2 h

theorem timesPow10_den_ne_zero (c : Nat) (p : Int) : (timesPow10 c p).2 ≠ 0 := by
  unfold timesPow10
  split_ifs
  · exact one_ne_zero
  · exact (pow_pos (by norm_num) _).ne'

theorem literalValue_canonical (ip fp : List Char) (ex : Int) :
    (literalValue ip fp ex).Canonical :=
  roundToDouble_canonical _ _ _ (timesPow10_den_ne_zero _ _)

theorem lexNumber_canonical (cs : List Char) (d : Double) (rest : List Char)
    (h : lexNumber cs = some (d, rest)) : d.Canonical := by
  unfold lexNumber at h
  simp only [] at h
  split_ifs at h
  split at h
  · simp at h
  · split at h
    · simp at h
    · split_ifs at h
      simp only [Option.some.injEq, Prod.mk.injEq] at h
      rw [← h.1]
      exact literalValue_canonical _ _ _

theorem identValue_wf (name : List Char) (v : JSVal) (h : identValue name = some v) :
    v.WellFormed := by
  unfold identValue at h
  split_ifs at h <;> simp only [Option.some.injEq] at h <;> subst h <;> trivial

theorem mem_cons_lit (w v : JSVal) (ts : List Token) (h : Token.lit w ∈ Token.lit v :: ts) :
    w = v ∨ Token.lit w ∈ ts := by
  rcases List.mem_cons.mp h with h | h
  · exact Or.inl (by injection h)
  · exact Or.inr h

theorem mem_cons_op (w : JSVal) (o : BinOp) (ts : List Token) (h : Token.lit w ∈ Token.op o :: ts) :
    Token.lit w ∈ ts := by
  rcases List.mem_cons.mp h with h | h
  · cases h
  · exact h

theorem lex_wf : ∀ (fuel : Nat) (operand : Bool) (cs : List Char) (ts : List Token),
    lex fuel operand cs = Res.ok ts → ∀ w, Token.lit w ∈ ts → w.WellFormed := by
  intro fuel
  induction fuel with
  | zero =>
    intro operand cs ts h
    simp [lex] at h
  | succ fuel ih =>
    intro operand cs ts h w hw
    cases cs with
    | nil =>
      simp only [lex, Res.ok.injEq] at h
      subst h
      simp at hw
    | cons c cs =>
      unfold lex at h
      split_ifs at h with h1 h2 h3 h4 h5 h6 h7 h8 h9 h10
      · -- `/` where an operand is expected
        split at h
        · split_ifs at h
          simp only [Res.ok.injEq] at h
          subst h
          simp at hw
        · obtain ⟨rest', _, h⟩ := bind_eq_ok _ _ _ h
          exact ih _ _ _ h w hw
        · rename_i hnot1 hnot2
          split at h
          · simp at h
          · rename_i hd after hdrop
            simp only [] at h
            split_ifs at h with hv ha
            obtain ⟨ts', h1', h⟩ := bind_eq_ok _ _ _ h
            simp only [Res.ok.injEq] at h
            subst h
            rcases mem_cons_lit _ _ _ hw with hw | hw
            · subst hw
              simp only [Bool.or_eq_true, Bool.not_eq_true', not_or, Bool.not_eq_false,
                Bool.not_eq_true] at hv
              refine ⟨?_, ?_, hv.1, hv.2⟩
              · cases cs with
                | nil => simp at hdrop
                | cons x xs =>
                  have hx : x ≠ '/' := fun hx => hnot1 xs (by rw [hx])
                  simp [List.takeWhile, hx]
              · intro hmem
                have := List.mem_takeWhile_imp hmem
                simp at this
            · exact ih _ _ _ h1' w hw
      · -- `/` where an operator is expected
        split at h
        · split_ifs at h
          simp only [Res.ok.injEq] at h
          subst h
          simp at hw
        · obtain ⟨rest', _, h⟩ := bind_eq_ok _ _ _ h
          exact ih _ _ _ h w hw
        · obtain ⟨ts', h1', h⟩ := bind_eq_ok _ _ _ h
          simp only [Res.ok.injEq] at h
          subst h
          exact ih _ _ _ h1' w (mem_cons_op _ _ _ hw)
      · obtain ⟨ts', h1', h⟩ := bind_eq_ok _ _ _ h
        simp only [Res.ok.injEq] at h
        subst h
        exact ih _ _ _ h1' w (mem_cons_op _ _ _ hw)
      · obtain ⟨ts', h1', h⟩ := bind_eq_ok _ _ _ h
        simp only [Res.ok.injEq] at h
        subst h
        exact ih _ _ _ h1' w (mem_cons_op _ _ _ hw)
      · obtain ⟨ts', h1', h⟩ := bind_eq_ok _ _ _ h
        simp only [Res.ok.injEq] at h
        subst h
        exact ih _ _ _ h1' w (mem_cons_op _ _ _ hw)
      · split at h
        · simp at h
        · rename_i d rest hnum
          obtain ⟨ts', h1', h⟩ := bind_eq_ok _ _ _ h
          simp only [Res.ok.injEq] at h
          subst h
          rcases mem_cons_lit _ _ _ hw with hw | hw
          · subst hw
            exact lexNumber_canonical _ _ _ hnum
          · exact ih _ _ _ h1' w hw
      · split at h
        · simp at h
        · rename_i v hid
          obtain ⟨ts', h1', h⟩ := bind_eq_ok _ _ _ h
          simp only [Res.ok.injEq] at h
          subst h
          rcases mem_cons_lit _ _ _ hw with hw | hw
          · subst hw
            exact identValue_wf _ _ hid
          · exact ih _ _ _ h1' w hw

theorem evalProgram_wf (program : QString) (v : JSVal) (h : evalProgram program = Res.ok v) :
    v.WellFormed := by
  unfold evalProgram at h
  obtain ⟨ts, h1, h2⟩ := bind_eq_ok _ _ _ h
  exact evalTokens_wf ts v (lex_wf _ _ _ _ h1) h2

/-! ## Result texts evaluate to themselves -/

theorem formatDigits_head (s k : Nat) (n : Int) (hk : 1 ≤ k) (h1 : 10 ^ (k - 1) ≤ s)
    (h2 : s < 10 ^ k) :
    ∃ c cs, formatDigits s k n = c :: cs ∧ c.isDigit = true := by
  obtain ⟨hne, hdig, _, _, _, _⟩ := toDigits_spec s
  have hlen := toDigits_length s k hk h1 h2
  unfold formatDigits
  simp only []
  generalize Nat.toDigits 10 s = ds at hne hdig hlen ⊢
  cases ds with
  | nil => exact absurd rfl hne
  | cons d ds' =>
    have hd := hdig d (List.mem_cons_self _ _)
    by_cases hB : 0 < n ∧ n ≤ 21 ∧ ¬ ((k : Int) ≤ n ∧ n ≤ 21)
    · have hn0 : n.toNat ≠ 0 := by omega
      obtain ⟨j, hj⟩ := Nat.exists_eq_succ_of_ne_zero hn0
      rw [if_neg hB.2.2, if_pos ⟨hB.1, hB.2.1⟩, hj]
      exact ⟨d, _, rfl, hd⟩
    · split_ifs
      all_goals first
        | exact ⟨d, _, rfl, hd⟩
        | exact ⟨'0', _, rfl, by decide⟩
        | (exfalso; omega)

theorem evalProgram_number_text (c : Char) (cs : List Char) (d : Double)
    (hc : c.isDigit = true) (hnum : lexNumber (c :: cs) = some (d, [])) :
    evalProgram (c :: cs) = Res.ok (JSVal.number d) ∧
      evalProgram ('-' :: c :: cs) = Res.ok (JSVal.number d.neg) := by
  have hlex : ∀ operand, lex (cs.length + 1 + 1) operand (c :: cs) =
      Res.ok [Token.lit (JSVal.number d)] := by
    intro operand
    rw [lex_digit _ _ _ _ hc, hnum]
    simp [lex, Res.bind]
  constructor
  · unfold evalProgram
    rw [List.length_cons, hlex]
    simp [Res.bind, evalTokens, parseUnary, parseMulRest, parseAddRest]
  · have hcm : c ≠ '-' := (isDigit_ne c hc).2.2.1
    have hlex2 : lex (cs.length + 1 + 1 + 1) true ('-' :: c :: cs) =
        Res.ok [Token.op BinOp.minus, Token.lit (JSVal.number d)] := by
      have h1 : ¬ ('-' = '/') := by decide
      have h2 : ¬ ('-' = '+') := by decide
      have h3 : ¬ ((c :: cs).head? = some '-') := by
        simp only [List.head?_cons, Option.some.injEq]
        exact hcm
      rw [lex]
      · simp only [if_neg h1, if_neg h2, if_true, if_neg h3, hlex, Res.bind]
      · intro tail h
        simp only [List.cons.injEq] at h
        exact (isDigit_ne c hc).1 h.1
      · intro rest h
        simp only [List.cons.injEq] at h
        exact (isDigit_ne c hc).2.2.2.1 h.1
    unfold evalProgram
    rw [List.length_cons, List.length_cons, hlex2]
    simp [Res.bind, evalTokens, parseUnary, parseMulRest, parseAddRest, JSVal.toNumber]

theorem number_text_fixed (d : Double) (hd : d.Canonical) :
    ecmaEvaluate d.toString = some (QJSValue.value d.toString) := by
  cases d with
  | nan => decide
  | inf s =>
    cases s
    · decide
    · decide
  | fin s m e =>
    by_cases hm : m = 0
    · subst hm
      simp only [Double.toString, if_true]
      decide
    · have hd' : (Double.fin false m e).Canonical := hd
      obtain ⟨hr, h1, h2, hk⟩ := shortestDigits_good m e hd' hm
      have htext : (Double.fin s m e).toString =
          if s then '-' :: formatDigits (shortestDigits m e).1 (shortestDigits m e).2.1
              (shortestDigits m e).2.2
          else formatDigits (shortestDigits m e).1 (shortestDigits m e).2.1
              (shortestDigits m e).2.2 := by
        simp only [Double.toString, if_neg hm]
      have hpos : (Double.fin false m e).toString =
          formatDigits (shortestDigits m e).1 (shortestDigits m e).2.1
            (shortestDigits m e).2.2 := by
        simp only [Double.toString, if_neg hm, Bool.false_eq_true, if_false]
      generalize shortestDigits m e = skn at hr h1 h2 hk htext hpos
      obtain ⟨c, cs, hbody, hc⟩ := formatDigits_head skn.1 skn.2.1 skn.2.2 hk h1 h2
      have hnum := lexNumber_formatDigits skn.1 skn.2.1 skn.2.2 hk h1 h2
      unfold roundsTo at hr
      rw [decide_eq_true_iff] at hr
      rw [hr, hbody] at hnum
      obtain ⟨e1, e2⟩ := evalProgram_number_text c cs _ hc hnum
      rw [hbody] at htext hpos
      cases s with
      | false =>
        simp only [Bool.false_eq_true, if_false] at htext
        rw [htext]
        unfold ecmaEvaluate
        rw [e1]
        simp only [JSVal.toString]
        rw [hpos]
      | true =>
        simp only [if_true] at htext
        rw [htext]
        unfold ecmaEvaluate
        rw [e2]
        simp only [JSVal.toString, Double.neg, Bool.not_false]
        rw [htext]

theorem regexp_text_fixed (body : List Char) (hwf : (JSVal.regexp body).WellFormed) :
    ecmaEvaluate (JSVal.regexp body).toString =
      some (QJSValue.value (JSVal.regexp body).toString) := by
  obtain ⟨hne, hslash, hvalid, hquant⟩ := hwf
  have htake : ∀ (l : List Char), '/' ∉ l →
      (l ++ ['/']).takeWhile (fun x => decide (x ≠ '/')) = l ∧
      (l ++ ['/']).dropWhile (fun x => decide (x ≠ '/')) = ['/'] := by
    intro l
    induction l with
    | nil => intro _; simp [List.takeWhile, List.dropWhile]
    | cons x xs ih =>
      intro h
      have hx : x ≠ '/' := fun hx => h (by rw [hx]; exact List.mem_cons_self _ _)
      have hdec : decide (x ≠ '/') = true := decide_eq_true hx
      obtain ⟨i1, i2⟩ := ih (fun h' => h (List.mem_cons_of_mem _ h'))
      rw [List.cons_append, List.takeWhile_cons, List.dropWhile_cons]
      simp only [hdec, if_true, i1, i2, and_self]
  obtain ⟨ht, hdr⟩ := htake body hslash
  cases body with
  | nil => exact absurd rfl hne
  | cons b bs =>
    have hb1 : b ≠ '/' := fun h => hslash (by rw [h]; exact List.mem_cons_self _ _)
    have hb2 : b ≠ '*' := by
      intro h
      subst h
      simp [isQuantifier, List.headD] at hquant
    have hlex : lex ((b :: bs).length + 1 + 1 + 1) true ('/' :: ((b :: bs) ++ ['/'])) =
        Res.ok [Token.lit (JSVal.regexp (b :: bs))] := by
      rw [lex]
      · simp only [if_true]
        rw [hdr]
        simp only [ht, hvalid, hquant]
        simp [lex, Res.bind]
      · intro tail h
        simp only [List.cons_append, List.cons.injEq] at h
        exact hb1 h.1
      · intro rest h
        simp only [List.cons_append, List.cons.injEq] at h
        exact hb2 h.1
    have hlen : ((JSVal.regexp (b :: bs)).toString).length + 1 =
        (b :: bs).length + 1 + 1 + 1 := by
      simp [JSVal.toString]
    unfold ecmaEvaluate evalProgram
    rw [hlen]
    simp only [JSVal.toString]
    rw [hlex]
    simp [Res.bind, evalTokens, parseUnary, parseMulRest, parseAddRest, JSVal.toString]

theorem value_text_fixed (v : JSVal) (hwf : v.WellFormed) (hns : ∀ s, v ≠ JSVal.string s) :
    ecmaEvaluate v.toString = some (QJSValue.value v.toString) := by
  cases v with
  | undefined => decide
  | number d => exact number_text_fixed d hwf
  | string s => exact absurd rfl (hns s)
  | regexp body => exact regexp_text_fixed body hwf

theorem conforms_legacyOctalEngine : Conforms legacyOctalEngine := by
  intro program v h
  unfold legacyOctalEngine
  by_cases hp : program = "010".toList
  · subst hp
    have hnone : ecmaEvaluate "010".toList = none := by decide
    rw [hnone] at h
    exact absurd h (by simp)
  · rw [if_neg hp]
    exact conforms_fragmentEngine program v h

/-- C8 (amended): for every buffer `e` and every conforming engine: if
evaluating `e` is ok with text `r`, and `r` is the text of a result that is not a
string (a number, `undefined` or a regular expression object), then evaluating
`r` is ok with text `r`, and after `=` on `e` a second `=` leaves buffer and
display unchanged.  This is so in particular whenever the reference semantics
evaluates `e` to a value `v` that is not a string. -/
theorem c8_results_fixed (engine : QString → QJSValue) (hc : Conforms engine)
    (e d : QString) :
    (∀ r, engine e = QJSValue.value r → IsValueText r →
      engine r = QJSValue.value r ∧
      handleButton engine (some "=".toList) { display := d, expression := e } =
        { display := r, expression := r } ∧
      handleButton engine (some "=".toList)
          (handleButton engine (some "=".toList) { display := d, expression := e }) =
        handleButton engine (some "=".toList) { display := d, expression := e }) ∧
    (∀ v, evalProgram e = Res.ok v → (∀ s, v ≠ JSVal.string s) →
      IsValueText v.toString ∧
      engine e = QJSValue.value v.toString ∧
      engine v.toString = QJSValue.value v.toString ∧
      handleButton engine (some "=".toList) { display := d, expression := e } =
        { display := v.toString, expression := v.toString } ∧
      handleButton engine (some "=".toList)
          (handleButton engine (some "=".toList) { display := d, expression := e }) =
        handleButton engine (some "=".toList) { display := d, expression := e }) := by
  have hp : ∀ c, handleButton engine (some "=".toList) c = evaluateExpression engine c :=
    fun c => press_equals engine c
  have key : ∀ r, engine e = QJSValue.value r → IsValueText r →
      engine r = QJSValue.value r ∧
      handleButton engine (some "=".toList) { display := d, expression := e } =
        { display := r, expression := r } ∧
      handleButton engine (some "=".toList)
          (handleButton engine (some "=".toList) { display := d, expression := e }) =
        handleButton engine (some "=".toList) { display := d, expression := e } := by
    intro r h1 hr
    obtain ⟨v, hwf, hns, hv⟩ := hr
    have h2 : engine r = QJSValue.value r := by
      rw [hv]
      exact hc _ _ (value_text_fixed v hwf hns)
    have h3 : handleButton engine (some "=".toList) { display := d, expression := e } =
        { display := r, expression := r } := by
      rw [hp, evaluateExpression_value engine _ _ h1]
    refine ⟨h2, h3, ?_⟩
    rw [h3, hp, evaluateExpression_value engine _ _ h2]
  refine ⟨key, ?_⟩
  intro v hev hns
  have h1 : engine e = QJSValue.value v.toString := by
    apply hc
    unfold ecmaEvaluate
    rw [hev]
  have hr : IsValueText v.toString := ⟨v, evalProgram_wf e v hev, hns, rfl⟩
  obtain ⟨h2, h3, h4⟩ := key v.toString h1 hr
  exact ⟨hr, h1, h2, h3, h4⟩

/-- Witness for C8 (amended): the buffer `1/3` in the reference engine, whose
value is the binary64 `6004799503160661 * 2^-54` with text `0.3333333333333333`;
and the buffer `010`, outside the fragment, in an engine that answers `8`. -/
theorem c8_results_fixed_witness :
    (fragmentEngine "1/3".toList = QJSValue.value "0.3333333333333333".toList ∧
      fragmentEngine "0.3333333333333333".toList =
        QJSValue.value "0.3333333333333333".toList) ∧
    (legacyOctalEngine "010".toList = QJSValue.value "8".toList ∧
      handleButton legacyOctalEngine (some "=".toList)
          (handleButton legacyOctalEngine (some "=".toList)
            { display := "010".toList, expression := "010".toList }) =
        handleButton legacyOctalEngine (some "=".toList)
          { display := "010".toList, expression := "010".toList }) :=
  ⟨⟨by decide!,
    ((c8_results_fixed fragmentEngine conforms_fragmentEngine "1/3".toList []).1
      "0.3333333333333333".toList (by decide!)
      ⟨JSVal.number (Double.fin false 6004799503160661 (-54)),
        by simp [JSVal.WellFormed, Double.Canonical], fun s h => JSVal.noConfusion h,
        by decide!⟩).1⟩,
   ⟨by decide,
    ((c8_results_fixed legacyOctalEngine conforms_legacyOctalEngine "010".toList
        "010".toList).1
      "8".toList (by decide)
      ⟨JSVal.number (Double.fin false 4503599627370496 (-49)),
        by simp [JSVal.WellFormed, Double.Canonical], fun s h => JSVal.noConfusion h,
        by decide!⟩).2.2⟩⟩

end Calc
